import Mathlib

/-!
Verification of the Freeze-Thaw learning-curve likelihood computations and
related components of the syne-tune repository, as a shallow embedding over
exact rational arithmetic.  Machine floats are modelled by ℚ, numpy arrays by
lists, and the external Cholesky routine by an abstract function parameter
that both the fast and the slow likelihood path receive unchanged.
-/

namespace SyneTune

/-! ### Forward substitution (scipy `solve_triangular` with `lower=True`).

`solveLower L b j` is the `j`-th entry of the solution `x` of `T x = b`
where `T` is the lower-triangular matrix with entries `L`.  Forward
substitution only reads entries `L j k` with `k ≤ j`, so solving against the
upper-left `d × d` submatrix agrees with solving against the full matrix on
all entries `j < d`. -/

def solveLower (L : ℕ → ℕ → ℚ) (b : ℕ → ℚ) : ℕ → ℚ
  | j => (b j - ∑ k in (Finset.range j).attach, L j k.1 * solveLower L b k.1)
      / L j j
decreasing_by exact Finset.mem_range.mp k.2

/-! ### Data model of `freeze_thaw.py`

A resource kernel (an `ExponentialDecayBaseKernelFunction` in the source, but
the likelihood code works for any resource kernel and mean function) is
modelled by its resource range and by the scalar kernel and mean functions it
evaluates on integer resource values.  The external Cholesky routine
`cholesky_factorization` (defined outside the embedded file, in
`gpautograd/custom_op.py`) is modelled as an abstract function parameter that
is handed unchanged to both the fast and the slow likelihood path. -/

structure ResKernel where
  r_min : ℤ
  r_max : ℤ
  k : ℤ → ℤ → ℚ
  m : ℤ → ℚ

/-- Entry `mat[i][j]` of a matrix stored as a list of rows. -/
def entry (mat : List (List ℚ)) (i j : ℕ) : ℚ := (mat.getD i []).getD j 0

/-- `countGt l j` is the number of entries of `l` that exceed `j`; this is the
column sum `np.sum(ydims.reshape((-1,1)) > arange(...), axis=0)[j]` of the
source. -/
def countGt (l : List ℕ) (j : ℕ) : ℕ := (l.filter (fun dd => decide (j < dd))).length

/-- Result of `resource_kernel_likelihood_precomputations`. -/
structure Precomp where
  ydims : List ℕ
  num_configs : List ℕ
  yflat : List ℚ

/-- `resource_kernel_likelihood_precomputations`: per-configuration target
counts, the group sizes `num_configs`, and the flattened target vector built
part by part (`yflat[off:off+num] = [y[pos] for y in targets[:num]]`). -/
def resource_kernel_likelihood_precomputations (targets : List (List ℚ)) :
    Precomp :=
  let ydims := targets.map List.length
  let ydim_max := ydims.headD 0
  let num_configs := (List.range ydim_max).map (fun j => countGt ydims j)
  let yflat := num_configs.enum.flatMap
    (fun pn => (targets.take pn.2).map (fun y => y.getD pn.1 0))
  { ydims := ydims, num_configs := num_configs, yflat := yflat }

/-- The matrix `amat = res_kernel(rvals, rvals) / noise_variance +
anp.diag(anp.ones(dim))` that both likelihood paths pass to the Cholesky
factorization, with `rvals = arange(r_min, r_min + dim)`.  No jitter term is
added (the source carries a TODO asking whether `AddJitterOp` is needed). -/
def resAmat (res_kernel : ResKernel) (noise_variance : ℚ) (dim : ℕ) :
    List (List ℚ) :=
  (List.range dim).map (fun (i : ℕ) => (List.range dim).map (fun (j : ℕ) =>
    res_kernel.k (res_kernel.r_min + (i : ℤ)) (res_kernel.r_min + (j : ℤ))
        / noise_variance
      + (if i = j then 1 else 0)))

/-- `means_all = _flatvec(res_kernel.mean_function(rvals))`. -/
def meansList (res_kernel : ResKernel) (dim : ℕ) : List ℚ :=
  (List.range dim).map (fun (j : ℕ) => res_kernel.m (res_kernel.r_min + (j : ℤ)))

/-- Result record shared by `resource_kernel_likelihood_computations` and
`resource_kernel_likelihood_slow_computations` (the dict returned by the
source; `c` and `d` are absent when `skip_c_d` is set). -/
@[ext] structure LikelihoodResult where
  num_data : ℕ
  vtv : List ℚ
  wtv : List ℚ
  wtw : List ℚ
  lfact_all : List (List ℚ)
  ydims : List ℕ
  c : Option (List ℚ)
  d : Option (List ℚ)

/-- Loop state of the forward sweep of
`resource_kernel_likelihood_computations`: the running offset into `yflat`,
the row vector `vvec`, the matrix `wmat` (stored as a list of rows, one row
per processed resource level), the collected parts `wtv_lst`/`wtw_lst`
(in reverse completion order), and the current group size `num_prev`. -/
structure FastState where
  off : ℕ
  vvec : List ℚ
  wmat : List (List ℚ)
  wtv_lst : List (List ℚ)
  wtw_lst : List (List ℚ)
  num_prev : ℕ

/-- `_flatvec(anp.matmul(vvec, rows))` for a row vector `vvec` and a matrix
given by its rows (all rows have the same length in every use). -/
def rowMatMul (v : List ℚ) (rows : List (List ℚ)) : List ℚ :=
  (List.range (rows.headD []).length).map
    (fun c => (List.zipWith (fun a r => a * r.getD c 0) v rows).sum)

/-- `_flatvec(anp.sum(anp.square(rows), axis=0))`: per-column sums of
squares. -/
def colSumSq (rows : List (List ℚ)) : List ℚ :=
  (List.range (rows.headD []).length).map
    (fun c => (rows.map (fun r => (r.getD c 0) ^ 2)).sum)

/-- `np.cumsum` with a running accumulator. -/
def cumsumFrom (acc : ℚ) : List ℚ → List ℚ
  | [] => []
  | a :: t => (acc + a) :: cumsumFrom (acc + a) t

/-- `np.cumsum`. -/
def cumsum (l : List ℚ) : List ℚ := cumsumFrom 0 l

/-- One iteration of the `for ydim, num in enumerate(num_configs[1:],
start=1)` loop: slice off completed columns (when the group size drops),
summarize them into `wtv_lst`/`wtw_lst`, then extend `wmat` by the new row
`w_new` and `vvec` by `v_new`.  `lvec = lfact_all[ydim, :ydim]` appears as
the mapped list over `List.range ydim`. -/
def fastStep (yflat : List ℚ) (means : List ℚ) (L : ℕ → ℕ → ℚ)
    (s : FastState) (p : ℕ × ℕ) : FastState :=
  let ydim := p.1
  let num := p.2
  let s1 : FastState :=
    if num < s.num_prev then
      { s with
        wtv_lst := s.wtv_lst
          ++ [rowMatMul s.vvec (s.wmat.map (fun r => r.drop num))],
        wtw_lst := s.wtw_lst
          ++ [colSumSq (s.wmat.map (fun r => r.drop num))],
        wmat := s.wmat.map (fun r => r.take num),
        num_prev := num }
    else s
  let rhs := ((yflat.drop s1.off).take num).map (fun yv => yv - means.getD ydim 0)
  let ilscal := 1 / L ydim ydim
  let w_new := (List.range num).map (fun c =>
    (rhs.getD c 0
      - (List.zipWith (fun lk r => lk * r.getD c 0)
          ((List.range ydim).map (fun k2 => L ydim k2)) s1.wmat).sum) * ilscal)
  let v_new := (1 - (List.zipWith (fun lk vk => lk * vk)
      ((List.range ydim).map (fun k2 => L ydim k2)) s1.vvec).sum) * ilscal
  { off := s1.off + num,
    vvec := s1.vvec ++ [v_new],
    wmat := s1.wmat ++ [w_new],
    wtv_lst := s1.wtv_lst,
    wtw_lst := s1.wtw_lst,
    num_prev := s1.num_prev }

/-- Initial loop state: `off = num_configs[0]`, `vvec = [1 / L[0,0]]`,
`wmat = _rowvec(yflat[:off] - means_all[0]) * ilscal`. -/
def fastInit (yflat : List ℚ) (means : List ℚ) (L : ℕ → ℕ → ℚ)
    (num_all : ℕ) : FastState :=
  let ilscal := 1 / L 0 0
  { off := num_all,
    vvec := [ilscal],
    wmat := [(yflat.take num_all).map (fun yv => (yv - means.getD 0 0) * ilscal)],
    wtv_lst := [],
    wtw_lst := [],
    num_prev := num_all }

/-- `resource_kernel_likelihood_computations` (the fast path), with the
external Cholesky factorization as the abstract parameter `chol`. -/
def resource_kernel_likelihood_computations (precomputed : Precomp)
    (res_kernel : ResKernel) (noise_variance : ℚ)
    (chol : List (List ℚ) → List (List ℚ)) (skip_c_d : Bool) :
    LikelihoodResult :=
  let num_configs := precomputed.num_configs
  let num_all_configs := num_configs.headD 0
  let ydims := precomputed.ydims
  let ydim_max := ydims.headD 0
  let means := meansList res_kernel ydim_max
  let lfact_all := chol (resAmat res_kernel noise_variance ydim_max)
  let L := entry lfact_all
  let sfin := (List.enumFrom 1 num_configs.tail).foldl
    (fastStep precomputed.yflat means L)
    (fastInit precomputed.yflat means L num_all_configs)
  let wtv_lst := sfin.wtv_lst ++ [rowMatMul sfin.vvec sfin.wmat]
  let wtw_lst := sfin.wtw_lst ++ [colSumSq sfin.wmat]
  let vtv_for_ydim := cumsum (sfin.vvec.map (fun x => x ^ 2))
  { num_data := ydims.sum,
    -- vtv_for_ydim[ydim - 1]: Python indexing at -1 selects the last entry
    -- when ydim = 0 (target sizes are positive on the intended domain)
    vtv := ydims.map (fun dd =>
      if dd = 0 then vtv_for_ydim.getLastD 0 else vtv_for_ydim.getD (dd - 1) 0),
    wtv := wtv_lst.reverse.flatten,
    wtw := wtw_lst.reverse.flatten,
    lfact_all := lfact_all,
    ydims := ydims,
    c := if skip_c_d then none else some (List.replicate num_all_configs 0),
    d := if skip_c_d then none else some (List.replicate num_all_configs 0) }

/-- `resource_kernel_likelihood_slow_computations`: the naive per-datapoint
path.  `solve_triangular(lfact, rhs, lower=True)` on the upper-left
`ydim × ydim` submatrix is forward substitution `solveLower`, which only
reads entries `L[j][k]` with `k ≤ j < ydim`. -/
def resource_kernel_likelihood_slow_computations (targets : List (List ℚ))
    (res_kernel : ResKernel) (noise_variance : ℚ)
    (chol : List (List ℚ) → List (List ℚ)) (skip_c_d : Bool) :
    LikelihoodResult :=
  let num_configs := targets.length
  let ydims := targets.map List.length
  let ydim_max := ydims.foldr max 0
  let means := meansList res_kernel ydim_max
  let lfact_all := chol (resAmat res_kernel noise_variance ydim_max)
  let L := entry lfact_all
  let vvec := solveLower L (fun _ => 1)
  { num_data := ydims.sum,
    vtv := targets.map (fun yvec =>
      ∑ j in Finset.range yvec.length, (vvec j) ^ 2),
    wtv := targets.map (fun yvec =>
      ∑ j in Finset.range yvec.length,
        solveLower L (fun j2 => yvec.getD j2 0 - means.getD j2 0) j * vvec j),
    wtw := targets.map (fun yvec =>
      ∑ j in Finset.range yvec.length,
        (solveLower L (fun j2 => yvec.getD j2 0 - means.getD j2 0) j) ^ 2),
    lfact_all := lfact_all,
    ydims := ydims,
    c := if skip_c_d then none else some (List.replicate num_configs 0),
    d := if skip_c_d then none else some (List.replicate num_configs 0) }

/-- Log-determinant of the upper-left `dsub × dsub` submatrix of a triangular
Cholesky factor: the sum of the logarithms of its diagonal entries (`logf` is
the abstract logarithm). -/
def logdetSub (logf : ℚ → ℚ) (lfact : List (List ℚ)) (dsub : ℕ) : ℚ :=
  ∑ j in Finset.range dsub, logf (entry lfact j j)

/-- `logdet_cholfact_cov_resource`: the inner product of
`log(diag(lfact_all))` with the weights `w_j = sum_i I[ydims[i] > j]`, over
`j < max(ydims)`. -/
def logdet_cholfact_cov_resource (logf : ℚ → ℚ) (lfact_all : List (List ℚ))
    (ydims : List ℕ) : ℚ :=
  let dim := ydims.foldr max 0
  ∑ j in Finset.range dim, logf (entry lfact_all j j) * (countGt ydims j : ℚ)

/-- Loop invariant of the forward sweep (a proof device, not source code):
after processing steps `1..t` the offset equals the total size of the first
`t+1` parts of `yflat`, the group size is `numc t`, `vvec` holds the first
`t+1` entries of the forward substitution against the ones vector, `wmat`
holds rows `0..t` of the forward substitutions of the first `numc t`
configurations (with right-hand sides `bfun c`, i.e. `w c = solveLower L
(bfun c)`), and the parts collected so far reassemble — in reverse completion
order — to the per-configuration statistics of the already completed
configurations `numc t ≤ c < n` (whose target sizes are `dfun c`). -/
def FastInv (n : ℕ) (numc : ℕ → ℕ) (v : ℕ → ℚ) (w : ℕ → ℕ → ℚ)
    (dfun : ℕ → ℕ) (t : ℕ) (s : FastState) : Prop :=
  s.off = ∑ q in Finset.range (t + 1), numc q
  ∧ s.num_prev = numc t
  ∧ s.vvec = (List.range (t + 1)).map v
  ∧ s.wmat = (List.range (t + 1)).map (fun j =>
      (List.range (numc t)).map (fun c => w c j))
  ∧ s.wtv_lst.reverse.flatten
      = (List.range' (numc t) (n - numc t)).map (fun c =>
          ∑ j in Finset.range (dfun c), v j * w c j)
  ∧ s.wtw_lst.reverse.flatten
      = (List.range' (numc t) (n - numc t)).map (fun c =>
          ∑ j in Finset.range (dfun c), (w c j) ^ 2)

/-! ### Assertion predicates

Each conjunct renders one `assert` of the corresponding source function; the
final conjunct of `precompAssertsOk` renders the requirement that every slice
assignment `yflat[off:(off + num)] = ycurr` receives exactly `num` values
(together with `assert off == total_size`). -/

def precompAssertsOk (targets : List (List ℚ)) : Prop :=
  let p := resource_kernel_likelihood_precomputations targets
  p.num_configs.headD 0 = targets.length ∧
  0 < p.num_configs.getLastD 0 ∧
  p.num_configs.sum = p.ydims.sum ∧
  p.yflat.length = p.num_configs.sum

def fastAssertsOk (precomputed : Precomp) (res_kernel : ResKernel) : Prop :=
  0 < precomputed.num_configs.headD 0 ∧
  0 < res_kernel.r_max + 1 - res_kernel.r_min

def slowAssertsOk (targets : List (List ℚ)) (res_kernel : ResKernel) : Prop :=
  0 < targets.length ∧
  ∀ y ∈ targets, 0 < y.length ∧
    (y.length : ℤ) ≤ res_kernel.r_max + 1 - res_kernel.r_min

/-! ### `ZeroKernel` and `ZeroMean` -/

/-- `ZeroKernel`: constant zero kernel (returns zero scalars). -/
structure ZeroKernel where
  dimension : ℕ

def ZeroKernel.forward {α : Type} (_ : ZeroKernel) (_X1 _X2 : α) : ℚ := 0

def ZeroKernel.diagonal {α : Type} (_ : ZeroKernel) (_X : α) : ℚ := 0

def ZeroKernel.diagonal_depends_on_X (_ : ZeroKernel) : Bool := false

def ZeroKernel.param_encoding_pairs {π : Type} (_ : ZeroKernel) : List π := []

def ZeroKernel.get_params (_ : ZeroKernel) : List (String × ℚ) := []

def ZeroKernel.set_params {π : Type} (s : ZeroKernel) (_param_dict : π) :
    ZeroKernel := s

/-- `ZeroMean`: constant zero mean function. -/
structure ZeroMean

def ZeroMean.forward {α : Type} (_ : ZeroMean) (_X : α) : ℚ := 0

def ZeroMean.param_encoding_pairs {π : Type} (_ : ZeroMean) : List π := []

def ZeroMean.get_params (_ : ZeroMean) : List (String × ℚ) := []

def ZeroMean.set_params {π : Type} (s : ZeroMean) (_param_dict : π) :
    ZeroMean := s

/-! ### `ExponentialDecayBaseKernelFunction`

The wrapped `ExponentialDecayResourcesKernelFunction` with `delta=0` lives
outside the embedded file; it is modelled abstractly by its evaluation
functions on (possibly normalized) input vectors. -/

structure WrappedKernel (κ : Type) where
  k : List ℚ → List ℚ → κ
  diag : List ℚ → κ
  mean : List ℚ → κ

structure ExpDecayBaseKernel (κ : Type) where
  kernel : WrappedKernel κ
  r_min : ℤ
  r_max : ℤ
  lower : ℚ
  width : ℚ
  normalize_inputs : Bool

/-- Constructor of `ExponentialDecayBaseKernelFunction` (the `assert r_max >
r_min` of `__init__` is a hypothesis of the theorems): `lower = r_min - 0.5 +
EPS`, `width = r_max - r_min + 1 - 2 * EPS`. -/
def mkExpDecayBase {κ : Type} (kernel : WrappedKernel κ) (r_max r_min : ℤ)
    (normalize_inputs : Bool) (eps : ℚ) : ExpDecayBaseKernel κ :=
  { kernel := kernel, r_min := r_min, r_max := r_max,
    lower := (r_min : ℚ) - 1/2 + eps,
    width := (r_max : ℚ) - (r_min : ℚ) + 1 - 2 * eps,
    normalize_inputs := normalize_inputs }

/-- `_normalize`, applied elementwise to an input array. -/
def ExpDecayBaseKernel.normalize {κ : Type} (b : ExpDecayBaseKernel κ)
    (X : List ℚ) : List ℚ := X.map (fun x => (x - b.lower) / b.width)

/-- `forward` (the `X2 is X1` identity test of the source only avoids
recomputing the same normalization and has no extensional effect). -/
def ExpDecayBaseKernel.forward {κ : Type} (b : ExpDecayBaseKernel κ)
    (X1 X2 : List ℚ) : κ :=
  if b.normalize_inputs then b.kernel.k (b.normalize X1) (b.normalize X2)
  else b.kernel.k X1 X2

def ExpDecayBaseKernel.diagonal {κ : Type} (b : ExpDecayBaseKernel κ)
    (X : List ℚ) : κ :=
  if b.normalize_inputs then b.kernel.diag (b.normalize X) else b.kernel.diag X

def ExpDecayBaseKernel.mean_function {κ : Type} (b : ExpDecayBaseKernel κ)
    (X : List ℚ) : κ :=
  if b.normalize_inputs then b.kernel.mean (b.normalize X) else b.kernel.mean X

/-! ### `GaussProcMCMCModelFactory` (from `gp_mcmc_model.py`) -/

/-- Modelled from the spec: the underlying `GPRegressionMCMC` model (defined
outside the embedded file) exposes the size of its pool of MCMC hyperparameter
samples as `number_samples`, and whether it is fit to multiple targets. -/
structure GPRegressionMCMC where
  number_samples : ℕ
  multiple_targets : Bool

structure GaussProcMCMCModelFactory where
  gpmodel : GPRegressionMCMC

/-- `_get_num_fantasy_samples`. -/
def GaussProcMCMCModelFactory.get_num_fantasy_samples
    (f : GaussProcMCMCModelFactory) : ℕ := f.gpmodel.number_samples

/-- `_num_samples_for_fantasies` (`none` renders the failing sanity check
`assert not self._gpmodel.multiple_targets()`). -/
def GaussProcMCMCModelFactory.num_samples_for_fantasies
    (f : GaussProcMCMCModelFactory) : Option ℕ :=
  if f.gpmodel.multiple_targets then none else some 1

/-! ### `Blackbox.objective_function` (from `blackbox.py`)

Spaces are modelled by their key lists, configurations and fidelity dicts by
association lists, and a failing assertion (or the `AttributeError` raised
when a non-empty fidelity dict is checked against an absent fidelity space) by
`none`.  The overridable `_objective_function` is the abstract parameter
`eval`. -/

inductive FidelityArg (K V : Type) where
  | fdict (entries : List (K × V))
  | fnum (v : V)

/-- `Blackbox._check_keys`: every fidelity-dict key must lie in the fidelity
space and every configuration key in the configuration space. -/
def check_keys {K V : Type} [DecidableEq K] (fidelity_space : Option (List K))
    (configuration_space : List K) (config : List (K × V))
    (fidelity : Option (FidelityArg K V)) : Bool :=
  (match fidelity with
    | some (FidelityArg.fdict entries) =>
      match fidelity_space with
      | some ks => entries.all (fun kv => decide (kv.1 ∈ ks))
      | none => entries.isEmpty
    | _ => true)
  && config.all (fun kv => decide (kv.1 ∈ configuration_space))

/-- `Blackbox.objective_function`. -/
def objective_function {K V R : Type} [DecidableEq K]
    (eval : List (K × V) → Option (List (K × V)) → R)
    (configuration_space : List K) (fidelity_space : Option (List K))
    (config : List (K × V)) (fidelity : Option (FidelityArg K V)) : Option R :=
  if check_keys fidelity_space configuration_space config fidelity then
    match fidelity_space with
    | none =>
      match fidelity with
      | none => some (eval config none)
      | some _ => none
    | some ks =>
      match fidelity with
      | none => if ks.length = 1 then some (eval config none) else none
      | some (FidelityArg.fdict entries) => some (eval config (some entries))
      | some (FidelityArg.fnum v) =>
        match ks with
        | [kname] => some (eval config (some [(kname, v)]))
        | _ => none
  else none

/-! ### Concrete data used by witnesses -/

/-- A zero resource kernel with unit mean-zero structure (used to exhibit the
absence of a jitter term: with `noise_variance = 1` the matrix passed to the
Cholesky factorization is exactly the identity). -/
def jitterKernel : ResKernel :=
  { r_min := 1, r_max := 2, k := fun _ _ => 0, m := fun _ => 0 }

/-- A nontrivial concrete resource kernel. -/
def witKernel : ResKernel :=
  { r_min := 1, r_max := 4,
    k := fun r s => ((r * s : ℤ) : ℚ) / 10 + 3,
    m := fun r => (r : ℚ) / 2 }

/-- Concrete target vectors, sorted by non-increasing length. -/
def witTargets : List (List ℚ) := [[1, 2, 3], [5, 6], [8]]

/-- A concrete stand-in for the abstract Cholesky routine (the equivalence
theorems hold for every such function). -/
def witChol (mat : List (List ℚ)) : List (List ℚ) :=
  (List.range mat.length).map (fun i => (List.range mat.length).map (fun j =>
    if j ≤ i then entry mat i j + (i : ℚ) + 1 else 0))

/-- A concrete wrapped kernel for the base-kernel witnesses. -/
def witWrapped : WrappedKernel ℚ :=
  { k := fun _ _ => 0, diag := fun _ => 0, mean := fun _ => 0 }

/-- A concrete overridable objective for the blackbox witnesses. -/
def witEval : List (ℕ × ℚ) → Option (List (ℕ × ℚ)) → ℚ := fun _ _ => 0

/-! ### Generic list helpers -/

/-- `getD` of a left part of an append. -/
lemma getD_append_left {α : Type} (l₁ l₂ : List α) (i : ℕ) (d : α)
    (h : i < l₁.length) : (l₁ ++ l₂).getD i d = l₁.getD i d := by
  induction l₁ generalizing i with
  | nil => simp at h
  | cons a t ih =>
    cases i with
    | zero => rfl
    | succ i => simpa using ih i (by simpa using h)

/-- `getD` of a right part of an append, at an offset of the left length. -/
lemma getD_append_right {α : Type} (l₁ l₂ : List α) (i : ℕ) (d : α) :
    (l₁ ++ l₂).getD (l₁.length + i) d = l₂.getD i d := by
  induction l₁ with
  | nil => simp
  | cons a t ih => simpa [Nat.succ_add] using ih

/-- `getD` of a mapped list at an in-range index. -/
lemma getD_map {α β : Type} (g : α → β) (l : List α) (i : ℕ) (d : α) (e : β)
    (h : i < l.length) : (l.map g).getD i e = g (l.getD i d) := by
  induction l generalizing i with
  | nil => simp at h
  | cons a t ih =>
    cases i with
    | zero => rfl
    | succ i => simpa using ih i (by simpa using h)

/-- `getD` of a take at an in-range index. -/
lemma getD_take {α : Type} (l : List α) (k i : ℕ) (d : α) (h : i < k) :
    (l.take k).getD i d = l.getD i d := by
  induction l generalizing k i with
  | nil => simp
  | cons a t ih =>
    cases k with
    | zero => omega
    | succ k =>
      cases i with
      | zero => rfl
      | succ i => simpa using ih k i (by omega)

/-- `getD` of a drop. -/
lemma getD_drop {α : Type} (l : List α) (a i : ℕ) (d : α) :
    (l.drop a).getD i d = l.getD (a + i) d := by
  induction l generalizing a with
  | nil => simp
  | cons x t ih =>
    cases a with
    | zero => simp
    | succ a => simpa [Nat.succ_add] using ih a

/-- `getD` of `List.range` at an in-range index. -/
lemma getD_range (m i : ℕ) (h : i < m) : (List.range m).getD i 0 = i := by
  induction m with
  | zero => omega
  | succ m ih =>
    rcases Nat.lt_or_ge i m with hi | hi
    · rw [List.range_succ, getD_append_left _ _ _ _ (by simpa using hi)]
      exact ih hi
    · have hi2 : i = m := by omega
      subst hi2
      rw [List.range_succ]
      calc (List.range i ++ [i]).getD i 0
          = (List.range i ++ [i]).getD ((List.range i).length + 0) 0 := by simp
        _ = [i].getD 0 0 := getD_append_right _ _ 0 0
        _ = i := rfl

/-- `getD` of a map over `List.range`. -/
lemma getD_range_map {β : Type} (f : ℕ → β) (m i : ℕ) (d : β) (h : i < m) :
    ((List.range m).map f).getD i d = f i := by
  rw [getD_map f _ i 0 d (by simpa using h), getD_range m i h]

/-- `getD` of a map over `List.range'`. -/
lemma getD_range'_map {β : Type} (f : ℕ → β) (a k i : ℕ) (d : β) (h : i < k) :
    ((List.range' a k).map f).getD i d = f (a + i) := by
  rw [List.range'_eq_map_range]
  rw [List.map_map]
  exact getD_range_map _ k i d h

/-- Sum of a map over `List.range` as a `Finset` sum. -/
lemma sum_map_range {β : Type} [AddCommMonoid β] (f : ℕ → β) (m : ℕ) :
    ((List.range m).map f).sum = ∑ j in Finset.range m, f j := by
  induction m with
  | zero => simp
  | succ m ih => rw [List.range_succ, Finset.sum_range_succ]; simp [ih]

/-- Sum of a zip of two maps over the same `List.range` as a `Finset` sum. -/
lemma sum_zipWith_range {β γ : Type} (φ : β → γ → ℚ) (f : ℕ → β) (g : ℕ → γ)
    (m : ℕ) :
    (List.zipWith φ ((List.range m).map f) ((List.range m).map g)).sum
      = ∑ j in Finset.range m, φ (f j) (g j) := by
  have h : List.zipWith φ ((List.range m).map f) ((List.range m).map g)
      = (List.range m).map (fun a => φ (f a) (g a)) := by
    simp
  rw [h, sum_map_range]

/-- `getLastD` of appending a singleton. -/
lemma getLastD_concat {α : Type} (l : List α) (a d : α) :
    (l ++ [a]).getLastD d = a := by
  rw [List.getLastD_eq_getLast?, List.getLast?_concat]
  rfl

/-- Length of a `flatMap` over `List.range`, as a `Finset` sum of part
lengths. -/
lemma length_flatMap_range {β : Type} (f : ℕ → List β) (m : ℕ) :
    ((List.range m).flatMap f).length = ∑ q in Finset.range m, (f q).length := by
  induction m with
  | zero => simp
  | succ m ih =>
    rw [List.range_succ, Finset.sum_range_succ]
    simp [ih]

/-- `getD` into a concatenation of parts indexed by `List.range`. -/
lemma flatMap_range_getD {β : Type} (f : ℕ → List β) (M p c : ℕ) (d : β)
    (hp : p < M) (hc : c < (f p).length) :
    ((List.range M).flatMap f).getD ((∑ q in Finset.range p, (f q).length) + c) d
      = (f p).getD c d := by
  induction M with
  | zero => omega
  | succ M ih =>
    rcases Nat.lt_or_ge p M with hpM | hpM
    · rw [List.range_succ, List.flatMap_append,
        getD_append_left _ _ _ _ ?inb]
      · exact ih hpM
      case inb =>
        have hle : (∑ q in Finset.range (p + 1), (f q).length)
            ≤ ((List.range M).flatMap f).length := by
          rw [length_flatMap_range]
          exact Finset.sum_le_sum_of_subset
            (Finset.range_subset.mpr (by omega))
        rw [Finset.sum_range_succ] at hle
        omega
    · have hpe : p = M := by omega
      subst hpe
      rw [List.range_succ, List.flatMap_append]
      have hlen : ((List.range p).flatMap f).length
          = ∑ q in Finset.range p, (f q).length := length_flatMap_range f p
      calc ((List.range p).flatMap f ++ [p].flatMap f).getD
            ((∑ q in Finset.range p, (f q).length) + c) d
          = ((List.range p).flatMap f ++ [p].flatMap f).getD
            (((List.range p).flatMap f).length + c) d := by rw [hlen]
        _ = ([p].flatMap f).getD c d := getD_append_right _ _ c d
        _ = (f p).getD c d := by simp

/-- `List.enumFrom` over a map of `List.range'` pairs every index with its
image. -/
lemma enumFrom_map_range' {β : Type} (f : ℕ → β) (a k : ℕ) :
    List.enumFrom a ((List.range' a k).map f)
      = (List.range' a k).map (fun t => (t, f t)) := by
  induction k generalizing a with
  | zero => simp
  | succ k ih => simpa [List.range'_succ] using ih (a + 1)

/-- Unfolding equation for `solveLower` with a plain `Finset.range` sum. -/
lemma solveLower_eq (L : ℕ → ℕ → ℚ) (b : ℕ → ℚ) (j : ℕ) :
    solveLower L b j
      = (b j - ∑ k in Finset.range j, L j k * solveLower L b k) / L j j := by
  rw [solveLower]
  congr 1
  rw [← Finset.sum_attach (Finset.range j) (fun k => L j k * solveLower L b k)]

/-! ### Counting lemmas -/

lemma countGt_nil (j : ℕ) : countGt [] j = 0 := rfl

lemma countGt_cons (a : ℕ) (t : List ℕ) (j : ℕ) :
    countGt (a :: t) j = (if j < a then 1 else 0) + countGt t j := by
  simp only [countGt, List.filter_cons]
  split <;> simp_all <;> omega

/-- Double counting: a `g`-weighted sum of the counts `countGt l j` over
`j < D` equals the sum over the entries `d` of `l` of the partial sums
`∑ j < d, g j`, provided every entry is at most `D`. -/
lemma sum_weighted_countGt (g : ℕ → ℚ) (l : List ℕ) (D : ℕ)
    (hD : ∀ d ∈ l, d ≤ D) :
    ∑ j in Finset.range D, g j * (countGt l j : ℚ)
      = (l.map (fun dd => ∑ j in Finset.range dd, g j)).sum := by
  induction l with
  | nil => simp [countGt_nil]
  | cons a t ih =>
    have ha : a ≤ D := hD a (by simp)
    have hsplit : ∀ j : ℕ, g j * (countGt (a :: t) j : ℚ)
        = (if j < a then g j else 0) + g j * (countGt t j : ℚ) := by
      intro j
      rw [countGt_cons]
      push_cast
      split <;> ring
    rw [Finset.sum_congr rfl (fun j _ => hsplit j), Finset.sum_add_distrib,
      ih (fun d hd => hD d (by simp [hd]))]
    have hrange : ∑ j in Finset.range D, (if j < a then g j else 0)
        = ∑ j in Finset.range a, g j := by
      rw [← Finset.sum_filter]
      congr 1
      ext j
      simp only [Finset.mem_filter, Finset.mem_range]
      omega
    rw [hrange]
    simp

/-- Natural-number version of the double counting identity, for the
`sum(num_configs) == sum(ydims)` assertion. -/
lemma sum_countGt_eq_sum (l : List ℕ) (D : ℕ) (hD : ∀ d ∈ l, d ≤ D) :
    ∑ j in Finset.range D, countGt l j = l.sum := by
  induction l with
  | nil => simp [countGt_nil]
  | cons a t ih =>
    have ha : a ≤ D := hD a (by simp)
    have hsplit : ∀ j : ℕ, countGt (a :: t) j
        = (if j < a then 1 else 0) + countGt t j := fun j => countGt_cons a t j
    rw [Finset.sum_congr rfl (fun j _ => hsplit j), Finset.sum_add_distrib,
      ih (fun d hd => hD d (by simp [hd]))]
    have hrange : (∑ j in Finset.range D, if j < a then 1 else 0) = a := by
      rw [← Finset.sum_filter]
      have : (Finset.range D).filter (fun j => j < a) = Finset.range a := by
        ext j
        simp only [Finset.mem_filter, Finset.mem_range]
        omega
      simp [this]
    rw [hrange, List.sum_cons]

lemma countGt_le_length (l : List ℕ) (j : ℕ) : countGt l j ≤ l.length :=
  List.length_filter_le _ _

/-- `countGt` as a sum of indicators over positions. -/
lemma countGt_eq_sum (l : List ℕ) (j : ℕ) :
    countGt l j = ∑ i in Finset.range l.length, if j < l.getD i 0 then 1 else 0 := by
  induction l with
  | nil => simp [countGt_nil]
  | cons a t ih =>
    rw [countGt_cons, List.length_cons, Finset.sum_range_succ', ih]
    simp [Nat.add_comm]

lemma getD_mem {α : Type} (l : List α) (i : ℕ) (d : α) (h : i < l.length) :
    l.getD i d ∈ l := by
  rw [List.getD_eq_getElem l d h]
  exact List.getElem_mem h

lemma countGt_anti (l : List ℕ) (j1 j2 : ℕ) (h : j1 ≤ j2) :
    countGt l j2 ≤ countGt l j1 := by
  rw [countGt_eq_sum, countGt_eq_sum]
  apply Finset.sum_le_sum
  intro i _
  by_cases h2 : j2 < l.getD i 0
  · have h1 : j1 < l.getD i 0 := by omega
    rw [if_pos h2, if_pos h1]
  · rw [if_neg h2]
    exact Nat.zero_le _

/-- On a list sorted by `≥`, the positions counted by `countGt l j` are
exactly the initial positions `i < countGt l j`. -/
lemma countGt_pos_iff (l : List ℕ) (hs : List.Sorted (· ≥ ·) l) (j : ℕ) :
    ∀ i, i < l.length → (i < countGt l j ↔ j < l.getD i 0) := by
  induction l with
  | nil => intro i hi; simp at hi
  | cons a t ih =>
    have hall : ∀ b ∈ t, b ≤ a := (List.sorted_cons.mp hs).1
    have hst : List.Sorted (· ≥ ·) t := (List.sorted_cons.mp hs).2
    intro i hi
    rw [countGt_cons]
    by_cases hja : j < a
    · rw [if_pos hja]
      cases i with
      | zero => simpa using hja
      | succ i =>
        have hit : i < t.length := by simpa using hi
        rw [List.getD_cons_succ]
        have := ih hst i hit
        omega
    · rw [if_neg hja]
      have hct : countGt t j = 0 := by
        simp only [countGt, List.length_eq_zero]
        rw [List.filter_eq_nil_iff]
        intro b hb
        have := hall b hb
        simp only [decide_eq_true_eq]
        omega
      rw [hct]
      cases i with
      | zero => simp [hja]
      | succ i =>
        have hit : i < t.length := by simpa using hi
        rw [List.getD_cons_succ]
        have hmem := getD_mem t i 0 hit
        have := hall _ hmem
        constructor
        · omega
        · intro hcon; omega

/-- On a sorted-by-`≥` nonempty list, the head is the maximum. -/
lemma foldr_max_le (l : List ℕ) (a : ℕ) (hall : ∀ b ∈ l, b ≤ a) :
    l.foldr max 0 ≤ a := by
  induction l with
  | nil => simp
  | cons x t ih =>
    simp only [List.foldr_cons]
    have hx := hall x (by simp)
    have ht := ih (fun b hb => hall b (by simp [hb]))
    omega

lemma le_foldr_max (l : List ℕ) : ∀ d ∈ l, d ≤ l.foldr max 0 := by
  intro d hd
  induction l with
  | nil => simp at hd
  | cons a t ih =>
    rcases List.mem_cons.mp hd with h | h
    · subst h; exact le_max_left _ _
    · exact le_trans (ih h) (by simp [le_max_right])

lemma headD_eq_foldr_max (l : List ℕ) (hs : List.Sorted (· ≥ ·) l)
    (hne : l ≠ []) : l.headD 0 = l.foldr max 0 := by
  cases l with
  | nil => simp at hne
  | cons a t =>
    have hall : ∀ b ∈ t, b ≤ a := (List.sorted_cons.mp hs).1
    simp only [List.headD_cons, List.foldr_cons]
    have := foldr_max_le t a hall
    omega

/-! ### Structure of `resource_kernel_likelihood_precomputations` -/

lemma precomp_ydims (targets : List (List ℚ)) :
    (resource_kernel_likelihood_precomputations targets).ydims
      = targets.map List.length := rfl

lemma precomp_num_configs (targets : List (List ℚ)) :
    (resource_kernel_likelihood_precomputations targets).num_configs
      = (List.range ((targets.map List.length).headD 0)).map
          (countGt (targets.map List.length)) := rfl

/-- The flattened target vector as a concatenation of parts over
`List.range`. -/
lemma precomp_yflat (targets : List (List ℚ)) :
    (resource_kernel_likelihood_precomputations targets).yflat
      = (List.range ((targets.map List.length).headD 0)).flatMap
          (fun pos => (targets.take (countGt (targets.map List.length) pos)).map
            (fun y => y.getD pos 0)) := by
  show ((List.range ((targets.map List.length).headD 0)).map
      (countGt (targets.map List.length))).enum.flatMap _ = _
  rw [List.enum]
  rw [List.range_eq_range']
  rw [enumFrom_map_range']
  rw [List.flatMap_map]

/-- Each part of `yflat` has length `num_configs[pos]`. -/
lemma yflat_part_length (targets : List (List ℚ)) (pos : ℕ) :
    ((targets.take (countGt (targets.map List.length) pos)).map
      (fun y => y.getD pos 0)).length = countGt (targets.map List.length) pos := by
  rw [List.length_map, List.length_take]
  have := countGt_le_length (targets.map List.length) pos
  rw [List.length_map] at this
  omega

lemma yflat_length (targets : List (List ℚ)) :
    (resource_kernel_likelihood_precomputations targets).yflat.length
      = (resource_kernel_likelihood_precomputations targets).num_configs.sum := by
  rw [precomp_yflat, precomp_num_configs, length_flatMap_range]
  rw [Finset.sum_congr rfl (fun pos _ => yflat_part_length targets pos)]
  rw [← sum_map_range]

/-- Entry lookup in `yflat`: position `c` of part `pos` holds the `pos`-th
target value of configuration `c`. -/
lemma yflat_getD (targets : List (List ℚ)) (pos c : ℕ)
    (hpos : pos < (targets.map List.length).headD 0)
    (hc : c < countGt (targets.map List.length) pos) :
    (resource_kernel_likelihood_precomputations targets).yflat.getD
        ((∑ q in Finset.range pos, countGt (targets.map List.length) q) + c) 0
      = (targets.getD c []).getD pos 0 := by
  rw [precomp_yflat]
  have hsum : (∑ q in Finset.range pos, countGt (targets.map List.length) q)
      = ∑ q in Finset.range pos,
          ((targets.take (countGt (targets.map List.length) q)).map
            (fun y => y.getD q 0)).length :=
    Finset.sum_congr rfl (fun q _ => (yflat_part_length targets q).symm)
  rw [hsum, flatMap_range_getD _ _ pos c 0 hpos
    (by rw [yflat_part_length]; exact hc)]
  have hcn : c < targets.length := by
    have := countGt_le_length (targets.map List.length) pos
    rw [List.length_map] at this
    omega
  have hctake : c < (targets.take (countGt (targets.map List.length) pos)).length := by
    rw [List.length_take]
    omega
  rw [getD_map _ _ c [] 0 hctake, getD_take _ _ _ _ hc]

/-! ### Range slicing helpers -/

lemma drop_range (m k : ℕ) : (List.range m).drop k = List.range' k (m - k) := by
  rcases le_or_lt k m with h | h
  · have hsplit : List.range m = List.range k ++ List.range' k (m - k) := by
      rw [List.range_eq_range', List.range_eq_range']
      nth_rewrite 1 [show m = m - k + k by omega]
      have happ := List.range'_append 0 k (m - k) 1
      simp only [Nat.one_mul, Nat.zero_add] at happ
      exact happ.symm
    rw [hsplit]
    have hlen : (List.range k).length = k := List.length_range k
    nth_rewrite 1 [← hlen]
    rw [List.drop_left]
  · rw [List.drop_eq_nil_of_le (by simpa using Nat.le_of_lt h)]
    have hmk : m - k = 0 := by omega
    rw [hmk]
    rfl

lemma take_map_range {β : Type} (f : ℕ → β) (m k : ℕ) (h : k ≤ m) :
    ((List.range m).map f).take k = (List.range k).map f := by
  rw [← List.map_take, List.take_range, min_eq_left h]

lemma drop_map_range {β : Type} (f : ℕ → β) (m k : ℕ) :
    ((List.range m).map f).drop k = (List.range' k (m - k)).map f := by
  rw [← List.map_drop, drop_range]

lemma headD_map_range {β : Type} (f : ℕ → β) (m : ℕ) (d : β) (h : 0 < m) :
    ((List.range m).map f).headD d = f 0 := by
  obtain ⟨m2, rfl⟩ : ∃ m2, m = m2 + 1 := ⟨m - 1, by omega⟩
  rw [List.range_eq_range', List.range'_succ, List.map_cons, List.headD_cons]

/-- Splitting `range' a (n - a)` at an intermediate point `b`. -/
lemma range'_split (a b n : ℕ) (hab : a ≤ b) (hbn : b ≤ n) :
    List.range' a (n - a) = List.range' a (b - a) ++ List.range' b (n - b) := by
  have happ := List.range'_append a (b - a) (n - b) 1
  simp only [Nat.one_mul] at happ
  have h1 : a + (b - a) = b := by omega
  rw [h1] at happ
  rw [show n - a = n - b + (b - a) by omega]
  exact happ.symm

/-- Entry of a mapped slice of a flat vector. -/
lemma slice_map_getD (l : List ℚ) (off num c : ℕ) (f : ℚ → ℚ)
    (hc : c < num) (hb : off + c < l.length) :
    (((l.drop off).take num).map f).getD c 0 = f (l.getD (off + c) 0) := by
  have hlt : c < ((l.drop off).take num).length := by
    rw [List.length_take, List.length_drop]
    omega
  rw [getD_map f _ c 0 0 hlt, getD_take _ _ _ _ hc, getD_drop]

/-- The largest target size is positive when the targets are non-empty. -/
lemma ydim_max_pos (targets : List (List ℚ)) (hne : targets ≠ [])
    (hall : ∀ y ∈ targets, y ≠ []) :
    0 < (targets.map List.length).headD 0 := by
  cases targets with
  | nil => simp at hne
  | cons y t =>
    simp only [List.map_cons, List.headD_cons]
    exact List.length_pos.mpr (hall y (by simp))

/-- All configurations have more than zero observations, so
`num_configs[0] = len(targets)`. -/
lemma num_configs_headD (targets : List (List ℚ)) (hne : targets ≠ [])
    (hall : ∀ y ∈ targets, y ≠ []) :
    (resource_kernel_likelihood_precomputations targets).num_configs.headD 0
      = targets.length := by
  rw [precomp_num_configs]
  obtain ⟨m, hm⟩ : ∃ m, (targets.map List.length).headD 0 = m + 1 :=
    ⟨(targets.map List.length).headD 0 - 1,
      by have := ydim_max_pos targets hne hall; omega⟩
  rw [hm, List.range_eq_range', List.range'_succ, List.map_cons, List.headD_cons]
  rw [countGt]
  have hfil : (targets.map List.length).filter (fun dd => decide (0 < dd))
      = targets.map List.length := by
    rw [List.filter_eq_self]
    intro a ha
    obtain ⟨y, hy, rfl⟩ := List.mem_map.mp ha
    simp only [decide_eq_true_eq]
    exact List.length_pos.mpr (hall y hy)
  rw [hfil, List.length_map]

/-- Every entry of `ydims` is at most the head of the sorted list. -/
lemma ydims_le_headD (targets : List (List ℚ))
    (hsort : List.Sorted (· ≥ ·) (targets.map List.length)) :
    ∀ d ∈ targets.map List.length, d ≤ (targets.map List.length).headD 0 := by
  intro d hd
  cases htl : targets.map List.length with
  | nil => rw [htl] at hd; simp at hd
  | cons a t =>
    rw [htl] at hd hsort
    simp only [List.headD_cons]
    rcases List.mem_cons.mp hd with h | h
    · omega
    · exact (List.sorted_cons.mp hsort).1 d h

/-- `assert num_configs[-1] > 0`. -/
lemma num_configs_getLastD_pos (targets : List (List ℚ)) (hne : targets ≠ [])
    (hall : ∀ y ∈ targets, y ≠ [])
    (hsort : List.Sorted (· ≥ ·) (targets.map List.length)) :
    0 < (resource_kernel_likelihood_precomputations targets).num_configs.getLastD 0 := by
  rw [precomp_num_configs]
  obtain ⟨m, hm⟩ : ∃ m, (targets.map List.length).headD 0 = m + 1 :=
    ⟨(targets.map List.length).headD 0 - 1,
      by have := ydim_max_pos targets hne hall; omega⟩
  rw [hm, List.range_succ, List.map_append, List.map_cons, List.map_nil,
    getLastD_concat]
  have hlen0 : 0 < (targets.map List.length).length := by
    rw [List.length_map]
    cases targets with
    | nil => simp at hne
    | cons y t => simp
  rw [(countGt_pos_iff (targets.map List.length) hsort m 0 hlen0)]
  have hget : (targets.map List.length).getD 0 0
      = (targets.map List.length).headD 0 := by
    cases targets.map List.length <;> rfl
  rw [hget, hm]
  omega

/-- `assert total_size == sum(ydims)`. -/
lemma num_configs_sum (targets : List (List ℚ)) (hne : targets ≠ [])
    (hall : ∀ y ∈ targets, y ≠ [])
    (hsort : List.Sorted (· ≥ ·) (targets.map List.length)) :
    (resource_kernel_likelihood_precomputations targets).num_configs.sum
      = (targets.map List.length).sum := by
  rw [precomp_num_configs, sum_map_range]
  exact sum_countGt_eq_sum (targets.map List.length) _
    (ydims_le_headD targets hsort)

/-! ### The forward sweep preserves the loop invariant -/

lemma fastStep_inv (yflat : List ℚ) (means : List ℚ) (L : ℕ → ℕ → ℚ)
    (n : ℕ) (numc : ℕ → ℕ) (bfun : ℕ → ℕ → ℚ) (dfun : ℕ → ℕ) (t : ℕ)
    (s : FastState)
    (hanti : numc (t + 1) ≤ numc t) (hnum : numc t ≤ n)
    (hyf : ∀ c, c < numc (t + 1) →
      yflat.getD ((∑ q in Finset.range (t + 1), numc q) + c) 0
        = bfun c (t + 1) + means.getD (t + 1) 0)
    (hyflen : (∑ q in Finset.range (t + 2), numc q) ≤ yflat.length)
    (hdf : ∀ c, numc (t + 1) ≤ c → c < numc t → dfun c = t + 1)
    (hinv : FastInv n numc (solveLower L (fun _ => 1))
      (fun c => solveLower L (bfun c)) dfun t s) :
    FastInv n numc (solveLower L (fun _ => 1)) (fun c => solveLower L (bfun c))
      dfun (t + 1) (fastStep yflat means L s (t + 1, numc (t + 1))) := by
  obtain ⟨hoff, hprev, hv, hw, htv, htw⟩ := hinv
  have hvnew : ∀ vv : List ℚ,
      vv = (List.range (t + 1)).map (solveLower L (fun _ => 1)) →
      (1 - (List.zipWith (fun lk vk => lk * vk)
          ((List.range (t + 1)).map (fun k2 => L (t + 1) k2)) vv).sum)
        * (1 / L (t + 1) (t + 1))
      = solveLower L (fun _ => 1) (t + 1) := by
    intro vv hvv
    rw [hvv, sum_zipWith_range (fun lk vk => lk * vk) _ _ (t + 1), mul_one_div,
      solveLower_eq]
  have hwnew : ∀ (wm : List (List ℚ)) (soff : ℕ),
      wm = (List.range (t + 1)).map (fun j =>
        (List.range (numc (t + 1))).map (fun c => solveLower L (bfun c) j)) →
      soff = ∑ q in Finset.range (t + 1), numc q →
      (List.range (numc (t + 1))).map (fun c =>
        ((((yflat.drop soff).take (numc (t + 1))).map
            (fun yv => yv - means.getD (t + 1) 0)).getD c 0
          - (List.zipWith (fun lk r => lk * r.getD c 0)
              ((List.range (t + 1)).map (fun k2 => L (t + 1) k2)) wm).sum)
          * (1 / L (t + 1) (t + 1)))
      = (List.range (numc (t + 1))).map
          (fun c => solveLower L (bfun c) (t + 1)) := by
    intro wm soff hwm hsoff
    refine List.map_congr_left (fun c hc => ?_)
    have hcm : c < numc (t + 1) := List.mem_range.mp hc
    have hbnd : soff + c < yflat.length := by
      have hss : (∑ q in Finset.range (t + 2), numc q)
          = (∑ q in Finset.range (t + 1), numc q) + numc (t + 1) :=
        Finset.sum_range_succ numc (t + 1)
      omega
    have hrhs : (((yflat.drop soff).take (numc (t + 1))).map
        (fun yv => yv - means.getD (t + 1) 0)).getD c 0 = bfun c (t + 1) := by
      rw [slice_map_getD yflat _ _ c _ hcm hbnd, hsoff, hyf c hcm]
      ring
    rw [hrhs, hwm, sum_zipWith_range (fun (lk : ℚ) (r : List ℚ) => lk * r.getD c 0) _ _ (t + 1)]
    have hentry : ∀ k, k ∈ Finset.range (t + 1) →
        L (t + 1) k * ((List.range (numc (t + 1))).map
          (fun c2 => solveLower L (bfun c2) k)).getD c 0
        = L (t + 1) k * solveLower L (bfun c) k := by
      intro k _
      rw [getD_range_map _ _ c 0 hcm]
    rw [Finset.sum_congr rfl hentry, mul_one_div, solveLower_eq]
  rcases Nat.lt_or_ge (numc (t + 1)) (numc t) with hlt | hge
  · -- the group size strictly drops: completed columns are sliced off
    simp only [fastStep, hprev, FastInv]
    rw [if_pos hlt]
    dsimp only
    refine ⟨?_, rfl, ?_, ?_, ?_, ?_⟩
    · rw [Finset.sum_range_succ, hoff]
    · conv_rhs => rw [List.range_succ, List.map_append, List.map_cons,
        List.map_nil]
      rw [hv, hvnew _ rfl]
    · conv_rhs => rw [List.range_succ, List.map_append, List.map_cons,
        List.map_nil]
      have hwm : s.wmat.map (fun r => r.take (numc (t + 1)))
          = (List.range (t + 1)).map (fun j =>
              (List.range (numc (t + 1))).map
                (fun c => solveLower L (bfun c) j)) := by
        rw [hw, List.map_map]
        refine List.map_congr_left (fun j _ => ?_)
        exact take_map_range _ _ _ hanti
      rw [hwm, hwnew _ s.off rfl hoff]
    · simp only [List.reverse_append, List.reverse_cons, List.reverse_nil,
        List.nil_append, List.singleton_append, List.flatten_cons]
      rw [htv, range'_split (numc (t + 1)) (numc t) n (le_of_lt hlt) hnum,
        List.map_append]
      congr 1
      have hrows : s.wmat.map (fun r => r.drop (numc (t + 1)))
          = (List.range (t + 1)).map (fun j =>
              (List.range' (numc (t + 1)) (numc t - numc (t + 1))).map
                (fun c => solveLower L (bfun c) j)) := by
        rw [hw, List.map_map]
        refine List.map_congr_left (fun j _ => ?_)
        exact drop_map_range _ _ _
      rw [hrows, rowMatMul, headD_map_range _ (t + 1) [] (by omega),
        List.length_map, List.length_range']
      conv_rhs => rw [List.range'_eq_map_range, List.map_map]
      refine List.map_congr_left (fun c hc => ?_)
      have hcm : c < numc t - numc (t + 1) := List.mem_range.mp hc
      simp only [Function.comp_apply]
      rw [hv, sum_zipWith_range (fun (a : ℚ) (r : List ℚ) => a * r.getD c 0) _ _ (t + 1)]
      have hentry : ∀ j, j ∈ Finset.range (t + 1) →
          solveLower L (fun _ => 1) j
            * ((List.range' (numc (t + 1)) (numc t - numc (t + 1))).map
                (fun c2 => solveLower L (bfun c2) j)).getD c 0
          = solveLower L (fun _ => 1) j
            * solveLower L (bfun (numc (t + 1) + c)) j := by
        intro j _
        rw [getD_range'_map _ _ _ c 0 hcm]
      rw [Finset.sum_congr rfl hentry,
        hdf (numc (t + 1) + c) (by omega) (by omega)]
    · simp only [List.reverse_append, List.reverse_cons, List.reverse_nil,
        List.nil_append, List.singleton_append, List.flatten_cons]
      rw [htw, range'_split (numc (t + 1)) (numc t) n (le_of_lt hlt) hnum,
        List.map_append]
      congr 1
      have hrows : s.wmat.map (fun r => r.drop (numc (t + 1)))
          = (List.range (t + 1)).map (fun j =>
              (List.range' (numc (t + 1)) (numc t - numc (t + 1))).map
                (fun c => solveLower L (bfun c) j)) := by
        rw [hw, List.map_map]
        refine List.map_congr_left (fun j _ => ?_)
        exact drop_map_range _ _ _
      rw [hrows, colSumSq, headD_map_range _ (t + 1) [] (by omega),
        List.length_map, List.length_range']
      conv_rhs => rw [List.range'_eq_map_range, List.map_map]
      refine List.map_congr_left (fun c hc => ?_)
      have hcm : c < numc t - numc (t + 1) := List.mem_range.mp hc
      simp only [Function.comp_apply]
      rw [List.map_map, sum_map_range]
      simp only [Function.comp_apply]
      have hentry : ∀ j, j ∈ Finset.range (t + 1) →
          ((((List.range' (numc (t + 1)) (numc t - numc (t + 1))).map
              (fun c2 => solveLower L (bfun c2) j)).getD c 0) ^ 2
            : ℚ)
          = (solveLower L (bfun (numc (t + 1) + c)) j) ^ 2 := by
        intro j _
        rw [getD_range'_map _ _ _ c 0 hcm]
      rw [Finset.sum_congr rfl hentry,
        hdf (numc (t + 1) + c) (by omega) (by omega)]
  · -- the group size is unchanged: no truncation
    have heq : numc (t + 1) = numc t := le_antisymm hanti hge
    simp only [fastStep, hprev, FastInv]
    rw [if_neg (by omega)]
    refine ⟨?_, ?_, ?_, ?_, ?_, ?_⟩
    · rw [Finset.sum_range_succ, hoff]
    · rw [hprev, heq]
    · conv_rhs => rw [List.range_succ, List.map_append, List.map_cons,
        List.map_nil]
      rw [hv, hvnew _ rfl]
    · conv_rhs => rw [List.range_succ, List.map_append, List.map_cons,
        List.map_nil]
      have hwm : s.wmat = (List.range (t + 1)).map (fun j =>
          (List.range (numc (t + 1))).map
            (fun c => solveLower L (bfun c) j)) := by
        rw [hw, heq]
      rw [hwm, hwnew _ s.off rfl hoff]
    · rw [htv, heq]
    · rw [htw, heq]

/-- Entries of `cumsumFrom` are the accumulator plus the partial sums. -/
lemma cumsumFrom_getD (l : List ℚ) (acc : ℚ) (j : ℕ) (hj : j < l.length) :
    (cumsumFrom acc l).getD j 0 = acc + (l.take (j + 1)).sum := by
  induction l generalizing acc j with
  | nil => simp at hj
  | cons a t ih =>
    cases j with
    | zero => simp [cumsumFrom]
    | succ j =>
      simp only [cumsumFrom, List.getD_cons_succ, List.take_succ_cons,
        List.sum_cons]
      rw [ih (acc + a) j (by simpa using hj)]
      ring

/-- `np.cumsum` of a mapped range evaluated at `dd - 1` is the partial sum up
to `dd`. -/
lemma cumsum_map_range_getD (g : ℕ → ℚ) (M dd : ℕ) (h1 : 1 ≤ dd)
    (h2 : dd ≤ M) :
    (cumsum ((List.range M).map g)).getD (dd - 1) 0
      = ∑ k in Finset.range dd, g k := by
  rw [cumsum, cumsumFrom_getD _ _ _ (by simp; omega)]
  rw [show dd - 1 + 1 = dd by omega, take_map_range g M dd h2, sum_map_range]
  ring

/-- A map over a list as a map over the index range. -/
lemma map_eq_range_map {α β : Type} (l : List α) (f : α → β) (d : α) :
    l.map f = (List.range l.length).map (fun c => f (l.getD c d)) := by
  apply List.ext_getElem
  · simp
  · intro i h1 h2
    simp only [List.getElem_map, List.getElem_range]
    rw [List.getD_eq_getElem l d (by simpa using h1)]

/-- A mapped take of a flat vector as a map over the index range. -/
lemma take_map_eq_range_map {β : Type} (l : List ℚ) (f : ℚ → β) (k : ℕ)
    (hk : k ≤ l.length) :
    (l.take k).map f = (List.range k).map (fun c => f (l.getD c 0)) := by
  apply List.ext_getElem
  · simp
    omega
  · intro i h1 h2
    simp only [List.getElem_map, List.getElem_take, List.getElem_range]
    rw [List.getD_eq_getElem l 0 (by simp at h2; omega)]

/-- The initial state satisfies the invariant at `t = 0`. -/
lemma fastInit_inv (yflat : List ℚ) (means : List ℚ) (L : ℕ → ℕ → ℚ)
    (n : ℕ) (numc : ℕ → ℕ) (bfun : ℕ → ℕ → ℚ) (dfun : ℕ → ℕ)
    (hn0 : numc 0 = n)
    (hyf0 : ∀ c, c < numc 0 →
      yflat.getD c 0 = bfun c 0 + means.getD 0 0)
    (hlen0 : numc 0 ≤ yflat.length) :
    FastInv n numc (solveLower L (fun _ => 1)) (fun c => solveLower L (bfun c))
      dfun 0 (fastInit yflat means L (numc 0)) := by
  refine ⟨by simp [fastInit], rfl, ?_, ?_, by simp [fastInit, hn0],
    by simp [fastInit, hn0]⟩
  · show [1 / L 0 0] = [solveLower L (fun _ => 1) 0]
    rw [solveLower_eq]
    norm_num
  · show [(yflat.take (numc 0)).map (fun yv => (yv - means.getD 0 0) * (1 / L 0 0))]
      = [(List.range (numc 0)).map (fun c => solveLower L (bfun c) 0)]
    rw [take_map_eq_range_map _ _ _ hlen0]
    congr 1
    refine List.map_congr_left (fun c hc => ?_)
    rw [hyf0 c (List.mem_range.mp hc), solveLower_eq]
    simp [div_eq_mul_inv]

/-- Folding the forward sweep over the remaining steps preserves the
invariant up to the final step `M - 1`. -/
lemma foldl_fastStep_inv (yflat : List ℚ) (means : List ℚ) (L : ℕ → ℕ → ℚ)
    (n : ℕ) (numc : ℕ → ℕ) (bfun : ℕ → ℕ → ℚ) (dfun : ℕ → ℕ) (M : ℕ)
    (hanti : ∀ t, t + 1 < M → numc (t + 1) ≤ numc t)
    (hnum : ∀ t, t < M → numc t ≤ n)
    (hyf : ∀ t c, t + 1 < M → c < numc (t + 1) →
      yflat.getD ((∑ q in Finset.range (t + 1), numc q) + c) 0
        = bfun c (t + 1) + means.getD (t + 1) 0)
    (hyflen : ∀ t, t + 1 < M →
      (∑ q in Finset.range (t + 2), numc q) ≤ yflat.length)
    (hdf : ∀ t c, t + 1 < M → numc (t + 1) ≤ c → c < numc t → dfun c = t + 1) :
    ∀ (k a : ℕ) (s : FastState), a + k = M → 1 ≤ a →
      FastInv n numc (solveLower L (fun _ => 1))
        (fun c => solveLower L (bfun c)) dfun (a - 1) s →
      FastInv n numc (solveLower L (fun _ => 1))
        (fun c => solveLower L (bfun c)) dfun (M - 1)
        (((List.range' a k).map (fun t => (t, numc t))).foldl
          (fastStep yflat means L) s) := by
  intro k
  induction k with
  | zero =>
    intro a s haM ha hinv
    have haM2 : a = M := by omega
    subst haM2
    simpa using hinv
  | succ k ih =>
    intro a s haM ha hinv
    rw [List.range'_succ, List.map_cons, List.foldl_cons]
    have ha1 : a - 1 + 1 = a := by omega
    have hstep := fastStep_inv yflat means L n numc bfun dfun (a - 1) s
      (hanti (a - 1) (by omega))
      (hnum (a - 1) (by omega))
      (fun c hc => hyf (a - 1) c (by omega) hc)
      (hyflen (a - 1) (by omega))
      (fun c hc1 hc2 => hdf (a - 1) c (by omega) hc1 hc2)
      hinv
    rw [ha1] at hstep
    exact ih (a + 1) _ (by omega) (by omega) (by simpa using hstep)

/-- Core characterization of the fast path: for sorted non-empty targets, the
produced `wtv`, `wtw` and `vtv` vectors hold, entry by entry in the input
configuration order, the forward-substitution statistics of each
configuration. -/
lemma fast_path_core (targets : List (List ℚ)) (kern : ResKernel) (noise : ℚ)
    (chol : List (List ℚ) → List (List ℚ)) (skip : Bool)
    (L : ℕ → ℕ → ℚ) (means : List ℚ)
    (hne : targets ≠ []) (hall : ∀ y ∈ targets, y ≠ [])
    (hsort : List.Sorted (· ≥ ·) (targets.map List.length))
    (hL : L = entry (chol (resAmat kern noise
      ((targets.map List.length).headD 0))))
    (hmeans : means = meansList kern ((targets.map List.length).headD 0)) :
    (resource_kernel_likelihood_computations
        (resource_kernel_likelihood_precomputations targets) kern noise chol
        skip).wtv
      = (List.range targets.length).map (fun c =>
          ∑ j in Finset.range (targets.getD c []).length,
            solveLower L (fun _ => 1) j
              * solveLower L (fun j2 =>
                  (targets.getD c []).getD j2 0 - means.getD j2 0) j)
    ∧ (resource_kernel_likelihood_computations
        (resource_kernel_likelihood_precomputations targets) kern noise chol
        skip).wtw
      = (List.range targets.length).map (fun c =>
          ∑ j in Finset.range (targets.getD c []).length,
            (solveLower L (fun j2 =>
              (targets.getD c []).getD j2 0 - means.getD j2 0) j) ^ 2)
    ∧ (resource_kernel_likelihood_computations
        (resource_kernel_likelihood_precomputations targets) kern noise chol
        skip).vtv
      = (targets.map List.length).map (fun dd =>
          ∑ j in Finset.range dd, (solveLower L (fun _ => 1) j) ^ 2) := by
  subst hL hmeans
  have hM1 : 0 < (targets.map List.length).headD 0 :=
    ydim_max_pos targets hne hall
  obtain ⟨m, hm⟩ : ∃ m, (targets.map List.length).headD 0 = m + 1 :=
    ⟨(targets.map List.length).headD 0 - 1, by omega⟩
  have hln : (targets.map List.length).length = targets.length :=
    List.length_map _ _
  have hdle : ∀ d ∈ targets.map List.length, d ≤ m + 1 := by
    intro d hd
    have := ydims_le_headD targets hsort d hd
    omega
  have hgetl : ∀ c, c < targets.length →
      (targets.map List.length).getD c 0 = (targets.getD c []).length := by
    intro c hc
    exact getD_map List.length targets c [] 0 hc
  have htail : (resource_kernel_likelihood_precomputations
        targets).num_configs.tail
      = (List.range' 1 m).map (countGt (targets.map List.length)) := by
    rw [precomp_num_configs, hm, List.range_eq_range', List.range'_succ,
      List.map_cons]
    rfl
  have henum : List.enumFrom 1
      ((List.range' 1 m).map (countGt (targets.map List.length)))
      = (List.range' 1 m).map
          (fun t => (t, countGt (targets.map List.length) t)) :=
    enumFrom_map_range' _ 1 m
  have hnumall : (resource_kernel_likelihood_precomputations
      targets).num_configs.headD 0 = countGt (targets.map List.length) 0 := by
    rw [precomp_num_configs]
    exact headD_map_range _ _ 0 hM1
  have hn0 : countGt (targets.map List.length) 0 = targets.length := by
    have h2 := num_configs_headD targets hne hall
    rw [hnumall] at h2
    exact h2
  have hyflen2 : (resource_kernel_likelihood_precomputations
      targets).yflat.length
      = ∑ q in Finset.range (m + 1), countGt (targets.map List.length) q := by
    rw [yflat_length, precomp_num_configs, hm, sum_map_range]
  have hinit := fastInit_inv
    (resource_kernel_likelihood_precomputations targets).yflat
    (meansList kern ((targets.map List.length).headD 0))
    (entry (chol (resAmat kern noise ((targets.map List.length).headD 0))))
    targets.length (countGt (targets.map List.length))
    (fun c => fun j2 => (targets.getD c []).getD j2 0
      - (meansList kern ((targets.map List.length).headD 0)).getD j2 0)
    (fun c => (targets.getD c []).length)
    hn0
    (fun c hc => by
      have h0 := yflat_getD targets 0 c hM1 hc
      simp only [Finset.range_zero, Finset.sum_empty, Nat.zero_add] at h0
      rw [h0]
      ring)
    (by
      rw [hyflen2]
      exact Finset.single_le_sum
        (f := fun q => countGt (targets.map List.length) q)
        (fun q _ => Nat.zero_le _) (Finset.mem_range.mpr (by omega)))
  have hfold := foldl_fastStep_inv
    (resource_kernel_likelihood_precomputations targets).yflat
    (meansList kern ((targets.map List.length).headD 0))
    (entry (chol (resAmat kern noise ((targets.map List.length).headD 0))))
    targets.length (countGt (targets.map List.length))
    (fun c => fun j2 => (targets.getD c []).getD j2 0
      - (meansList kern ((targets.map List.length).headD 0)).getD j2 0)
    (fun c => (targets.getD c []).length)
    (m + 1)
    (fun t _ => countGt_anti _ t (t + 1) (by omega))
    (fun t _ => by
      have := countGt_le_length (targets.map List.length) t
      omega)
    (fun t c ht hc => by
      have h0 := yflat_getD targets (t + 1) c (by omega) hc
      rw [h0]
      ring)
    (fun t ht => by
      rw [hyflen2]
      exact Finset.sum_le_sum_of_subset (Finset.range_subset.mpr (by omega)))
    (fun t c ht hc1 hc2 => by
      have hcl : c < (targets.map List.length).length := by
        have := countGt_le_length (targets.map List.length) t
        omega
      have hgt := (countGt_pos_iff (targets.map List.length) hsort t c hcl).mp
        hc2
      have hle : ¬ (t + 1 < (targets.map List.length).getD c 0) := by
        intro hcon
        have := (countGt_pos_iff (targets.map List.length) hsort (t + 1) c
          hcl).mpr hcon
        omega
      have hcn : c < targets.length := by omega
      show (targets.getD c []).length = t + 1
      rw [← hgetl c hcn]
      omega)
    m 1 _ (by omega) (by omega) hinit
  obtain ⟨hoff, hprev, hv, hw, htv, htw⟩ := hfold
  simp only [Nat.add_sub_cancel] at hoff hprev hv hw htv htw
  have hdlast : ∀ c, c < countGt (targets.map List.length) m →
      (targets.getD c []).length = m + 1 := by
    intro c hc
    have hcl : c < (targets.map List.length).length := by
      have := countGt_le_length (targets.map List.length) m
      omega
    have hcn : c < targets.length := by omega
    have hgt := (countGt_pos_iff (targets.map List.length) hsort m c hcl).mp hc
    have hub : (targets.map List.length).getD c 0 ≤ m + 1 :=
      hdle _ (getD_mem _ c 0 hcl)
    rw [← hgetl c hcn]
    omega
  have hnm : countGt (targets.map List.length) m ≤ targets.length := by
    have := countGt_le_length (targets.map List.length) m
    omega
  refine ⟨?_, ?_, ?_⟩
  · -- wtv
    simp only [resource_kernel_likelihood_computations, precomp_ydims]
    rw [htail, henum, hnumall]
    simp only [List.reverse_append, List.reverse_cons, List.reverse_nil,
      List.nil_append, List.singleton_append, List.flatten_cons]
    rw [htv, hv, hw, rowMatMul, headD_map_range _ _ [] (by omega),
      List.length_map, List.length_range]
    have hsplitr : (List.range targets.length).map (fun c =>
          ∑ j in Finset.range (targets.getD c []).length,
            solveLower (entry (chol (resAmat kern noise
                ((targets.map List.length).headD 0)))) (fun _ => 1) j
              * solveLower (entry (chol (resAmat kern noise
                  ((targets.map List.length).headD 0))))
                (fun j2 => (targets.getD c []).getD j2 0
                  - (meansList kern
                      ((targets.map List.length).headD 0)).getD j2 0) j)
        = (List.range (countGt (targets.map List.length) m)).map (fun c =>
            ∑ j in Finset.range (targets.getD c []).length,
              solveLower (entry (chol (resAmat kern noise
                  ((targets.map List.length).headD 0)))) (fun _ => 1) j
                * solveLower (entry (chol (resAmat kern noise
                    ((targets.map List.length).headD 0))))
                  (fun j2 => (targets.getD c []).getD j2 0
                    - (meansList kern
                        ((targets.map List.length).headD 0)).getD j2 0) j)
          ++ (List.range' (countGt (targets.map List.length) m)
              (targets.length - countGt (targets.map List.length) m)).map
            (fun c =>
              ∑ j in Finset.range (targets.getD c []).length,
                solveLower (entry (chol (resAmat kern noise
                    ((targets.map List.length).headD 0)))) (fun _ => 1) j
                  * solveLower (entry (chol (resAmat kern noise
                      ((targets.map List.length).headD 0))))
                    (fun j2 => (targets.getD c []).getD j2 0
                      - (meansList kern
                          ((targets.map List.length).headD 0)).getD j2 0) j) := by
      rw [← List.map_append]
      congr 1
      have h0 := range'_split 0 (countGt (targets.map List.length) m)
        targets.length (Nat.zero_le _) hnm
      simp only [Nat.sub_zero] at h0
      rw [List.range_eq_range', h0, List.range_eq_range']
    rw [hsplitr]
    congr 1
    refine List.map_congr_left (fun c hc => ?_)
    have hcm : c < countGt (targets.map List.length) m := List.mem_range.mp hc
    rw [sum_zipWith_range (fun (a : ℚ) (r : List ℚ) => a * r.getD c 0) _ _
      (m + 1)]
    have hentry : ∀ j ∈ Finset.range (m + 1),
        solveLower (entry (chol (resAmat kern noise
            ((targets.map List.length).headD 0)))) (fun _ => 1) j
          * ((List.range (countGt (targets.map List.length) m)).map
              (fun c2 => solveLower (entry (chol (resAmat kern noise
                  ((targets.map List.length).headD 0))))
                (fun j2 => (targets.getD c2 []).getD j2 0
                  - (meansList kern
                      ((targets.map List.length).headD 0)).getD j2 0) j)).getD
            c 0
        = solveLower (entry (chol (resAmat kern noise
            ((targets.map List.length).headD 0)))) (fun _ => 1) j
          * solveLower (entry (chol (resAmat kern noise
              ((targets.map List.length).headD 0))))
            (fun j2 => (targets.getD c []).getD j2 0
              - (meansList kern
                  ((targets.map List.length).headD 0)).getD j2 0) j := by
      intro j _
      rw [getD_range_map _ _ c 0 hcm]
    rw [Finset.sum_congr rfl hentry, hdlast c hcm]
  · -- wtw
    simp only [resource_kernel_likelihood_computations, precomp_ydims]
    rw [htail, henum, hnumall]
    simp only [List.reverse_append, List.reverse_cons, List.reverse_nil,
      List.nil_append, List.singleton_append, List.flatten_cons]
    rw [htw, hw, colSumSq, headD_map_range _ _ [] (by omega),
      List.length_map, List.length_range]
    have hsplitr : (List.range targets.length).map (fun c =>
          ∑ j in Finset.range (targets.getD c []).length,
            (solveLower (entry (chol (resAmat kern noise
                ((targets.map List.length).headD 0))))
              (fun j2 => (targets.getD c []).getD j2 0
                - (meansList kern
                    ((targets.map List.length).headD 0)).getD j2 0) j) ^ 2)
        = (List.range (countGt (targets.map List.length) m)).map (fun c =>
            ∑ j in Finset.range (targets.getD c []).length,
              (solveLower (entry (chol (resAmat kern noise
                  ((targets.map List.length).headD 0))))
                (fun j2 => (targets.getD c []).getD j2 0
                  - (meansList kern
                      ((targets.map List.length).headD 0)).getD j2 0) j) ^ 2)
          ++ (List.range' (countGt (targets.map List.length) m)
              (targets.length - countGt (targets.map List.length) m)).map
            (fun c =>
              ∑ j in Finset.range (targets.getD c []).length,
                (solveLower (entry (chol (resAmat kern noise
                    ((targets.map List.length).headD 0))))
                  (fun j2 => (targets.getD c []).getD j2 0
                    - (meansList kern
                        ((targets.map List.length).headD 0)).getD j2 0) j) ^ 2) := by
      rw [← List.map_append]
      congr 1
      have h0 := range'_split 0 (countGt (targets.map List.length) m)
        targets.length (Nat.zero_le _) hnm
      simp only [Nat.sub_zero] at h0
      rw [List.range_eq_range', h0, List.range_eq_range']
    rw [hsplitr]
    congr 1
    refine List.map_congr_left (fun c hc => ?_)
    have hcm : c < countGt (targets.map List.length) m := List.mem_range.mp hc
    rw [List.map_map, sum_map_range]
    simp only [Function.comp_apply]
    have hentry : ∀ j ∈ Finset.range (m + 1),
        (((List.range (countGt (targets.map List.length) m)).map
            (fun c2 => solveLower (entry (chol (resAmat kern noise
                ((targets.map List.length).headD 0))))
              (fun j2 => (targets.getD c2 []).getD j2 0
                - (meansList kern
                    ((targets.map List.length).headD 0)).getD j2 0) j)).getD
          c 0) ^ 2
        = (solveLower (entry (chol (resAmat kern noise
            ((targets.map List.length).headD 0))))
          (fun j2 => (targets.getD c []).getD j2 0
            - (meansList kern
                ((targets.map List.length).headD 0)).getD j2 0) j) ^ 2 := by
      intro j _
      rw [getD_range_map _ _ c 0 hcm]
    rw [Finset.sum_congr rfl hentry, hdlast c hcm]
  · -- vtv
    simp only [resource_kernel_likelihood_computations, precomp_ydims]
    rw [htail, henum, hnumall, hv]
    have hvv : (List.map (solveLower (entry (chol (resAmat kern noise
          ((targets.map List.length).headD 0)))) (fun _ => 1))
          (List.range (m + 1))).map (fun x => x ^ 2)
        = (List.range (m + 1)).map (fun j =>
            (solveLower (entry (chol (resAmat kern noise
              ((targets.map List.length).headD 0)))) (fun _ => 1) j) ^ 2) := by
      rw [List.map_map]
      exact List.map_congr_left (fun a _ => rfl)
    rw [hvv]
    refine List.map_congr_left (fun dd hdd => ?_)
    have hdd1 : 1 ≤ dd := by
      obtain ⟨y, hy, rfl⟩ := List.mem_map.mp hdd
      have hyp := List.length_pos.mpr (hall y hy)
      omega
    have hddM : dd ≤ m + 1 := hdle dd hdd
    rw [if_neg (by omega), cumsum_map_range_getD _ (m + 1) dd hdd1 hddM]

/-- C2: in the fast forward sweep, completed column ranges are sliced off,
summarized, collected in reverse completion order, and reassembled by
reversed concatenation, so that for every valid sorted input the final `wtv`
and `wtw` vectors are ordered by original configuration index: entry `c` is
the statistic (`wᵀv` resp. `wᵀw`) of configuration `c` of the input. -/
theorem fast_path_output_ordering (targets : List (List ℚ)) (kern : ResKernel)
    (noise : ℚ) (chol : List (List ℚ) → List (List ℚ)) (skip : Bool)
    (hne : targets ≠ []) (hall : ∀ y ∈ targets, y ≠ [])
    (hsort : List.Sorted (· ≥ ·) (targets.map List.length)) :
    (resource_kernel_likelihood_computations
        (resource_kernel_likelihood_precomputations targets) kern noise chol
        skip).wtv.length = targets.length
    ∧ (resource_kernel_likelihood_computations
        (resource_kernel_likelihood_precomputations targets) kern noise chol
        skip).wtw.length = targets.length
    ∧ ∀ c, c < targets.length →
        (resource_kernel_likelihood_computations
            (resource_kernel_likelihood_precomputations targets) kern noise
            chol skip).wtv.getD c 0
          = (∑ j in Finset.range (targets.getD c []).length,
              solveLower (entry (chol (resAmat kern noise
                  ((targets.map List.length).headD 0)))) (fun _ => 1) j
                * solveLower (entry (chol (resAmat kern noise
                    ((targets.map List.length).headD 0))))
                  (fun j2 => (targets.getD c []).getD j2 0
                    - (meansList kern
                        ((targets.map List.length).headD 0)).getD j2 0) j)
        ∧ (resource_kernel_likelihood_computations
            (resource_kernel_likelihood_precomputations targets) kern noise
            chol skip).wtw.getD c 0
          = (∑ j in Finset.range (targets.getD c []).length,
              (solveLower (entry (chol (resAmat kern noise
                  ((targets.map List.length).headD 0))))
                (fun j2 => (targets.getD c []).getD j2 0
                  - (meansList kern
                      ((targets.map List.length).headD 0)).getD j2 0) j) ^ 2) := by
  obtain ⟨hwtv, hwtw, _⟩ := fast_path_core targets kern noise chol skip _ _
    hne hall hsort rfl rfl
  refine ⟨by rw [hwtv]; simp, by rw [hwtw]; simp, fun c hc => ?_⟩
  rw [hwtv, hwtw, getD_range_map _ _ c 0 hc, getD_range_map _ _ c 0 hc]
  exact ⟨rfl, rfl⟩

theorem fast_path_output_ordering_witness :
    (resource_kernel_likelihood_computations
        (resource_kernel_likelihood_precomputations witTargets) witKernel 2
        witChol false).wtv.length = witTargets.length :=
  (fast_path_output_ordering witTargets witKernel 2 witChol false (by decide)
    (by decide) (by decide)).1

/-- C1: for every non-empty list of non-empty target vectors sorted by
non-increasing length, with lengths within the resource range, and for every
resource kernel, Cholesky routine and positive noise variance, the fast path
(applied to the precomputations) and the naive slow path agree exactly — on
`vtv`, `wtv`, `wtw`, `ydims`, the Cholesky factor `lfact_all` (hence on the
total log-determinant derived from it) and all remaining fields. -/
theorem fast_slow_equivalence (targets : List (List ℚ)) (kern : ResKernel)
    (noise : ℚ) (chol : List (List ℚ) → List (List ℚ)) (skip : Bool)
    (hne : targets ≠ []) (hall : ∀ y ∈ targets, y ≠ [])
    (hsort : List.Sorted (· ≥ ·) (targets.map List.length))
    (hlen : ∀ y ∈ targets, (y.length : ℤ) ≤ kern.r_max + 1 - kern.r_min)
    (hnoise : 0 < noise) :
    resource_kernel_likelihood_computations
        (resource_kernel_likelihood_precomputations targets) kern noise chol
        skip
      = resource_kernel_likelihood_slow_computations targets kern noise chol
        skip
    ∧ ∀ logf : ℚ → ℚ,
        logdet_cholfact_cov_resource logf
            (resource_kernel_likelihood_computations
              (resource_kernel_likelihood_precomputations targets) kern noise
              chol skip).lfact_all
            (resource_kernel_likelihood_computations
              (resource_kernel_likelihood_precomputations targets) kern noise
              chol skip).ydims
          = logdet_cholfact_cov_resource logf
              (resource_kernel_likelihood_slow_computations targets kern noise
                chol skip).lfact_all
              (resource_kernel_likelihood_slow_computations targets kern noise
                chol skip).ydims := by
  obtain ⟨hwtv, hwtw, hvtv⟩ := fast_path_core targets kern noise chol skip _ _
    hne hall hsort rfl rfl
  have hne2 : targets.map List.length ≠ [] := by
    cases targets
    · simp at hne
    · simp
  have hMf : (targets.map List.length).foldr max 0
      = (targets.map List.length).headD 0 :=
    (headD_eq_foldr_max _ hsort hne2).symm
  have heq : resource_kernel_likelihood_computations
      (resource_kernel_likelihood_precomputations targets) kern noise chol skip
      = resource_kernel_likelihood_slow_computations targets kern noise chol
        skip := by
    apply LikelihoodResult.ext
    · rfl
    · rw [hvtv]
      simp only [resource_kernel_likelihood_slow_computations]
      rw [hMf, List.map_map]
      exact List.map_congr_left (fun y _ => rfl)
    · rw [hwtv]
      simp only [resource_kernel_likelihood_slow_computations]
      rw [hMf]
      apply List.ext_getElem
      · simp
      · intro i h1 h2
        simp only [List.getElem_map, List.getElem_range]
        rw [List.getD_eq_getElem targets [] (by simpa using h2)]
        exact Finset.sum_congr rfl (fun j _ => mul_comm _ _)
    · rw [hwtw]
      simp only [resource_kernel_likelihood_slow_computations]
      rw [hMf]
      apply List.ext_getElem
      · simp
      · intro i h1 h2
        simp only [List.getElem_map, List.getElem_range]
        rw [List.getD_eq_getElem targets [] (by simpa using h2)]
    · show chol (resAmat kern noise ((targets.map List.length).headD 0))
        = chol (resAmat kern noise ((targets.map List.length).foldr max 0))
      rw [hMf]
    · rfl
    · show (if skip then none else some (List.replicate
          ((resource_kernel_likelihood_precomputations
            targets).num_configs.headD 0) (0 : ℚ)))
        = (if skip then none else some (List.replicate targets.length 0))
      rw [num_configs_headD targets hne hall]
    · show (if skip then none else some (List.replicate
          ((resource_kernel_likelihood_precomputations
            targets).num_configs.headD 0) (0 : ℚ)))
        = (if skip then none else some (List.replicate targets.length 0))
      rw [num_configs_headD targets hne hall]
  exact ⟨heq, fun logf => by rw [heq]⟩

theorem fast_slow_equivalence_witness :
    resource_kernel_likelihood_computations
        (resource_kernel_likelihood_precomputations witTargets) witKernel 2
        witChol false
      = resource_kernel_likelihood_slow_computations witTargets witKernel 2
        witChol false :=
  (fast_slow_equivalence witTargets witKernel 2 witChol false (by decide)
    (by decide) (by decide) (by decide) (by norm_num)).1

/-- C3: `logdet_cholfact_cov_resource` equals the sum over configurations `i`
of the log-determinant of the upper-left `ydims[i] × ydims[i]` submatrix of
the triangular factor `lfact_all` (the sum of the logarithms of its first
`ydims[i]` diagonal entries); equivalently it is the sum over diagonal
positions `j` of `log(lfact_all[j,j])` weighted by the number of
configurations with `ydims[i] > j`, so configurations with fewer observed
levels reuse the single shared factor. -/
theorem logdet_cholfact_sum_over_configs (logf : ℚ → ℚ)
    (lfact : List (List ℚ)) (ydims : List ℕ) :
    logdet_cholfact_cov_resource logf lfact ydims
        = (ydims.map (fun dd => logdetSub logf lfact dd)).sum
    ∧ logdet_cholfact_cov_resource logf lfact ydims
        = ∑ j in Finset.range (ydims.foldr max 0),
            logf (entry lfact j j) * (countGt ydims j : ℚ) := by
  have hD : ∀ d ∈ ydims, d ≤ ydims.foldr max 0 := by
    intro d hd
    induction ydims with
    | nil => simp at hd
    | cons a t ih =>
      rcases List.mem_cons.mp hd with h | h
      · subst h; exact le_max_left _ _
      · exact le_trans (ih h) (by simp [le_max_right])
  constructor
  · rw [logdet_cholfact_cov_resource]
    exact sum_weighted_countGt (fun j => logf (entry lfact j j)) ydims _ hD
  · rfl

/-- C5 counterexample: with the zero kernel and unit noise variance, the
matrix handed to the Cholesky factorization by both likelihood paths is
exactly `K/σ² + I` — the identity here — so no positive jitter epsilon is
added to its diagonal. -/
theorem no_jitter_counterexample :
    (resource_kernel_likelihood_computations
        (resource_kernel_likelihood_precomputations [[0, 0], [0]])
        jitterKernel 1 id false).lfact_all = [[1, 0], [0, 1]]
    ∧ (resource_kernel_likelihood_slow_computations [[0, 0], [0]]
        jitterKernel 1 id false).lfact_all = [[1, 0], [0, 1]]
    ∧ ¬ ∃ eps : ℚ, 0 < eps ∧
        resAmat jitterKernel 1 2 = [[1 + eps, 0], [0, 1 + eps]] := by
  have h1 : resAmat jitterKernel 1 2 = [[1, 0], [0, 1]] := by
    simp [resAmat, jitterKernel, List.range_succ]
  refine ⟨?_, ?_, ?_⟩
  · show id (resAmat jitterKernel 1 2) = [[1, 0], [0, 1]]
    exact h1
  · show id (resAmat jitterKernel 1 2) = [[1, 0], [0, 1]]
    exact h1
  rintro ⟨eps, heps, heq⟩
  rw [h1] at heq
  have h00 : (1 : ℚ) = 1 + eps := by
    have := congrArg (fun mat => entry mat 0 0) heq
    simpa [entry] using this
  linarith

/-- C5 amended: the matrix passed to the Cholesky factorization in both
likelihood paths is the kernel matrix over `r_min .. r_min+dim-1` divided by
the noise variance plus the identity, with no additional jitter term on the
diagonal. -/
theorem amat_no_jitter :
    (∀ (kern : ResKernel) (noise : ℚ) (dim i j : ℕ), i < dim → j < dim →
      entry (resAmat kern noise dim) i j
        = kern.k (kern.r_min + i) (kern.r_min + j) / noise
          + (if i = j then 1 else 0))
    ∧ (∀ p kern noise chol skip,
      (resource_kernel_likelihood_computations p kern noise chol skip).lfact_all
        = chol (resAmat kern noise (p.ydims.headD 0)))
    ∧ (∀ targets kern noise chol skip,
      (resource_kernel_likelihood_slow_computations targets kern noise chol
          skip).lfact_all
        = chol (resAmat kern noise ((targets.map List.length).foldr max 0))) := by
  refine ⟨fun kern noise dim i j hi hj => ?_, fun p kern noise chol skip => rfl,
    fun targets kern noise chol skip => rfl⟩
  rw [resAmat, entry, getD_range_map _ dim i [] hi, getD_range_map _ dim j 0 hj]

theorem amat_no_jitter_witness :
    entry (resAmat jitterKernel 1 2) 0 1
      = jitterKernel.k (jitterKernel.r_min + (0 : ℕ)) (jitterKernel.r_min + (1 : ℕ)) / 1
        + (if (0 : ℕ) = 1 then 1 else 0) :=
  amat_no_jitter.1 jitterKernel 1 2 0 1 (by decide) (by decide)

/-- C6: the MCMC model factory reports one fantasy sample per MCMC sample:
`_get_num_fantasy_samples` returns the number of MCMC samples of the
underlying `GPRegressionMCMC` model, and (when the sanity check passes)
`_num_samples_for_fantasies` returns exactly 1. -/
theorem mcmc_one_fantasy_per_sample (f : GaussProcMCMCModelFactory)
    (hmt : f.gpmodel.multiple_targets = false) :
    f.get_num_fantasy_samples = f.gpmodel.number_samples
    ∧ f.num_samples_for_fantasies = some 1 := by
  refine ⟨rfl, ?_⟩
  simp [GaussProcMCMCModelFactory.num_samples_for_fantasies, hmt]

theorem mcmc_one_fantasy_per_sample_witness :
    (GaussProcMCMCModelFactory.mk ⟨7, false⟩).get_num_fantasy_samples = 7
    ∧ (GaussProcMCMCModelFactory.mk ⟨7, false⟩).num_samples_for_fantasies
        = some 1 :=
  ⟨(mcmc_one_fantasy_per_sample ⟨⟨7, false⟩⟩ rfl).1.trans rfl,
   (mcmc_one_fantasy_per_sample ⟨⟨7, false⟩⟩ rfl).2⟩

/-- C7: the zero kernel and zero mean behave as the constant-zero reference:
`forward` and `diagonal` return zero on every input, `diagonal_depends_on_X`
is false, the parameter-encoding list and parameter dictionary are empty, and
`set_params` leaves the state unchanged for every argument. -/
theorem zero_kernel_zero_mean_behavior {α π : Type} (zk : ZeroKernel)
    (zm : ZeroMean) (X1 X2 X : α) (pd : π) :
    zk.forward X1 X2 = 0 ∧ zk.diagonal X = 0 ∧ zm.forward X = 0
    ∧ zk.diagonal_depends_on_X = false
    ∧ (zk.param_encoding_pairs : List π) = []
    ∧ (zm.param_encoding_pairs : List π) = []
    ∧ zk.get_params = [] ∧ zm.get_params = []
    ∧ zk.set_params pd = zk ∧ zm.set_params pd = zm :=
  ⟨rfl, rfl, rfl, rfl, rfl, rfl, rfl, rfl, rfl, rfl⟩

/-- C9: with `r_min < r_max` and `0 < EPS < 1/2`, the normalization
`(r - (r_min - 1/2 + EPS)) / (r_max - r_min + 1 - 2·EPS)` maps every
`r ∈ [r_min, r_max]` strictly into `(0, 1)`; with `normalize_inputs` set,
`forward`, `diagonal` and `mean_function` equal the wrapped kernel and mean
applied to the normalized inputs, and to the raw inputs otherwise. -/
theorem exp_decay_base_normalization {κ : Type} (kernel : WrappedKernel κ)
    (r_max r_min : ℤ) (norm : Bool) (eps : ℚ)
    (hr : r_min < r_max) (he0 : 0 < eps) (he1 : eps < 1/2) :
    (∀ r : ℚ, (r_min : ℚ) ≤ r → r ≤ (r_max : ℚ) →
      0 < (r - (mkExpDecayBase kernel r_max r_min norm eps).lower)
            / (mkExpDecayBase kernel r_max r_min norm eps).width
      ∧ (r - (mkExpDecayBase kernel r_max r_min norm eps).lower)
            / (mkExpDecayBase kernel r_max r_min norm eps).width < 1)
    ∧ (norm = true → ∀ X1 X2 X : List ℚ,
        (mkExpDecayBase kernel r_max r_min norm eps).forward X1 X2
          = kernel.k ((mkExpDecayBase kernel r_max r_min norm eps).normalize X1)
              ((mkExpDecayBase kernel r_max r_min norm eps).normalize X2)
        ∧ (mkExpDecayBase kernel r_max r_min norm eps).diagonal X
          = kernel.diag ((mkExpDecayBase kernel r_max r_min norm eps).normalize X)
        ∧ (mkExpDecayBase kernel r_max r_min norm eps).mean_function X
          = kernel.mean ((mkExpDecayBase kernel r_max r_min norm eps).normalize X))
    ∧ (norm = false → ∀ X1 X2 X : List ℚ,
        (mkExpDecayBase kernel r_max r_min norm eps).forward X1 X2
          = kernel.k X1 X2
        ∧ (mkExpDecayBase kernel r_max r_min norm eps).diagonal X
          = kernel.diag X
        ∧ (mkExpDecayBase kernel r_max r_min norm eps).mean_function X
          = kernel.mean X) := by
  have hw : (0 : ℚ) < (mkExpDecayBase kernel r_max r_min norm eps).width := by
    have h1 : (r_min : ℚ) + 1 ≤ (r_max : ℚ) := by
      have := Int.add_one_le_iff.mpr hr
      exact_mod_cast this
    simp only [mkExpDecayBase]
    linarith
  refine ⟨fun r hr1 hr2 => ⟨?_, ?_⟩, fun hn X1 X2 X => ?_, fun hn X1 X2 X => ?_⟩
  · apply div_pos ?_ hw
    simp only [mkExpDecayBase]
    linarith
  · rw [div_lt_one hw]
    have h1 : (r_min : ℚ) + 1 ≤ (r_max : ℚ) := by
      have := Int.add_one_le_iff.mpr hr
      exact_mod_cast this
    simp only [mkExpDecayBase]
    linarith
  · exact ⟨by simp [ExpDecayBaseKernel.forward, mkExpDecayBase, hn],
      by simp [ExpDecayBaseKernel.diagonal, mkExpDecayBase, hn],
      by simp [ExpDecayBaseKernel.mean_function, mkExpDecayBase, hn]⟩
  · exact ⟨by simp [ExpDecayBaseKernel.forward, mkExpDecayBase, hn],
      by simp [ExpDecayBaseKernel.diagonal, mkExpDecayBase, hn],
      by simp [ExpDecayBaseKernel.mean_function, mkExpDecayBase, hn]⟩

theorem exp_decay_base_normalization_witness :
    0 < ((1 : ℚ) - (mkExpDecayBase witWrapped 2 1 true (1/4)).lower)
        / (mkExpDecayBase witWrapped 2 1 true (1/4)).width
    ∧ ((1 : ℚ) - (mkExpDecayBase witWrapped 2 1 true (1/4)).lower)
        / (mkExpDecayBase witWrapped 2 1 true (1/4)).width < 1 :=
  (exp_decay_base_normalization witWrapped 2 1 true (1/4) (by decide)
    (by norm_num) (by norm_num)).1 1 (by norm_num) (by norm_num)

/-- C10: `objective_function` fails whenever a fidelity-dict key is outside
the fidelity space, a configuration key is outside the configuration space, a
fidelity is passed without a fidelity space, a fidelity is missing while the
fidelity space has more than one attribute, or a numeric fidelity is passed
while the fidelity space has more than one attribute; otherwise a numeric
fidelity is equivalent to the singleton dict on the unique fidelity key. -/
theorem blackbox_objective_function_checks {K V R : Type} [DecidableEq K] :
    (∀ (eval : List (K × V) → Option (List (K × V)) → R) cs ks e config,
      (∃ kv ∈ e, kv.1 ∉ ks) →
      objective_function eval cs (some ks) config
        (some (FidelityArg.fdict e)) = none)
    ∧ (∀ (eval : List (K × V) → Option (List (K × V)) → R) cs fs config fid,
      (∃ kv ∈ config, kv.1 ∉ cs) →
      objective_function eval cs fs config fid = none)
    ∧ (∀ (eval : List (K × V) → Option (List (K × V)) → R) cs config fid,
      objective_function eval cs none config (some fid) = none)
    ∧ (∀ (eval : List (K × V) → Option (List (K × V)) → R) cs ks config,
      1 < ks.length →
      objective_function eval cs (some ks) config none = none)
    ∧ (∀ (eval : List (K × V) → Option (List (K × V)) → R) cs ks config v,
      1 < ks.length →
      objective_function eval cs (some ks) config
        (some (FidelityArg.fnum v)) = none)
    ∧ (∀ (eval : List (K × V) → Option (List (K × V)) → R) cs kname config
        (v : V),
      objective_function eval cs (some [kname]) config
          (some (FidelityArg.fnum v))
        = objective_function eval cs (some [kname]) config
          (some (FidelityArg.fdict [(kname, v)]))) := by
  refine ⟨?_, ?_, ?_, ?_, ?_, ?_⟩
  · rintro eval cs ks e config ⟨kv, hkv, hnot⟩
    have hck : check_keys (some ks) cs config
        (some (FidelityArg.fdict e)) = false := by
      simp only [check_keys, Bool.and_eq_false_iff]
      left
      simp only [List.all_eq_false, decide_eq_true_eq]
      exact ⟨kv, hkv, by simpa using hnot⟩
    simp [objective_function, hck]
  · rintro eval cs fs config fid ⟨kv, hkv, hnot⟩
    have hck : check_keys fs cs config fid = false := by
      simp only [check_keys, Bool.and_eq_false_iff]
      right
      simp only [List.all_eq_false, decide_eq_true_eq]
      exact ⟨kv, hkv, by simpa using hnot⟩
    simp [objective_function, hck]
  · intro eval cs config fid
    simp only [objective_function]
    split <;> cases fid <;> rfl
  · intro eval cs ks config hlen
    have hne : ¬ ks.length = 1 := by omega
    cases hck : check_keys (some ks) cs config
        (none : Option (FidelityArg K V))
    · simp [objective_function, hck]
    · simp [objective_function, hck, hne]
  · intro eval cs ks config v hlen
    rcases ks with _ | ⟨a, t⟩
    · simp at hlen
    rcases t with _ | ⟨b, t2⟩
    · simp at hlen
    cases hck : check_keys (some (a :: b :: t2)) cs config
        (some (FidelityArg.fnum v))
    · simp [objective_function, hck]
    · simp [objective_function, hck]
  · intro eval cs kname config v
    simp only [objective_function, check_keys, List.all_cons, List.all_nil,
      Bool.and_true]
    rw [decide_eq_true (List.mem_singleton_self kname)]

theorem blackbox_objective_function_checks_witness :
    objective_function witEval [0] (some [1]) []
        (some (FidelityArg.fdict [(2, (5 : ℚ))])) = none
    ∧ objective_function witEval [0] (some [1, 2]) []
        (some (FidelityArg.fnum (5 : ℚ))) = none
    ∧ objective_function witEval [0] (some [1]) []
        (some (FidelityArg.fnum (5 : ℚ)))
      = objective_function witEval [0] (some [1]) []
        (some (FidelityArg.fdict [(1, (5 : ℚ))])) :=
  ⟨blackbox_objective_function_checks.1 witEval [0] [1] [(2, 5)] []
      ⟨(2, 5), by simp, by decide⟩,
   blackbox_objective_function_checks.2.2.2.2.1 witEval [0] [1, 2] [] 5
      (by norm_num),
   blackbox_objective_function_checks.2.2.2.2.2 witEval [0] 1 [] 5⟩

/-- C4: for targets sorted by non-increasing (in particular strictly
decreasing) number of observed levels, `num_configs[j]` counts the
configurations with `ydims[i] > j` (a non-increasing sequence starting at the
number of configurations), `yflat` consists of `ydim_max` consecutive parts
where part `j` has size `num_configs[j]` and holds the `j`-th value of each
of the first `num_configs[j]` configurations, with total length
`sum(ydims)`; and the fast path evaluates the abstract Cholesky routine at
exactly one matrix, the `ydim_max × ydim_max` kernel matrix over resource
values `r_min .. r_min + ydim_max - 1`. -/
theorem precomputations_structure (targets : List (List ℚ))
    (hne : targets ≠ []) (hall : ∀ y ∈ targets, y ≠ [])
    (hsort : List.Sorted (· ≥ ·) (targets.map List.length)) :
    (resource_kernel_likelihood_precomputations targets).num_configs.length
        = (targets.map List.length).headD 0
    ∧ (∀ j, j < (targets.map List.length).headD 0 →
        (resource_kernel_likelihood_precomputations targets).num_configs.getD j 0
          = ((Finset.range targets.length).filter
              (fun i => j < (targets.getD i []).length)).card)
    ∧ (resource_kernel_likelihood_precomputations targets).num_configs.headD 0
        = targets.length
    ∧ (∀ j1 j2, j1 ≤ j2 → j2 < (targets.map List.length).headD 0 →
        (resource_kernel_likelihood_precomputations targets).num_configs.getD j2 0
          ≤ (resource_kernel_likelihood_precomputations targets).num_configs.getD j1 0)
    ∧ (resource_kernel_likelihood_precomputations targets).yflat.length
        = (resource_kernel_likelihood_precomputations targets).ydims.sum
    ∧ (∀ pos c, pos < (targets.map List.length).headD 0 →
        c < (resource_kernel_likelihood_precomputations targets).num_configs.getD pos 0 →
        (resource_kernel_likelihood_precomputations targets).yflat.getD
            ((∑ q in Finset.range pos,
              (resource_kernel_likelihood_precomputations
                targets).num_configs.getD q 0) + c) 0
          = (targets.getD c []).getD pos 0)
    ∧ (∀ (p : Precomp) (kern : ResKernel) (noise : ℚ)
        (chol chol2 : List (List ℚ) → List (List ℚ)) (skip : Bool),
        chol (resAmat kern noise (p.ydims.headD 0))
          = chol2 (resAmat kern noise (p.ydims.headD 0)) →
        resource_kernel_likelihood_computations p kern noise chol skip
          = resource_kernel_likelihood_computations p kern noise chol2 skip)
    ∧ (∀ (p : Precomp) (kern : ResKernel) (noise : ℚ)
        (chol : List (List ℚ) → List (List ℚ)) (skip : Bool),
        (resource_kernel_likelihood_computations p kern noise chol
            skip).lfact_all
          = chol (resAmat kern noise (p.ydims.headD 0))) := by
  refine ⟨?_, ?_, num_configs_headD targets hne hall, ?_, ?_, ?_, ?_, ?_⟩
  · rw [precomp_num_configs, List.length_map, List.length_range]
  · intro j hj
    rw [precomp_num_configs, getD_range_map _ _ j 0 hj, countGt_eq_sum,
      Finset.card_filter, List.length_map]
    refine Finset.sum_congr rfl (fun i hi => ?_)
    have hin : i < targets.length := Finset.mem_range.mp hi
    rw [getD_map List.length targets i [] 0 hin]
  · intro j1 j2 h12 hj2
    rw [precomp_num_configs, getD_range_map _ _ j2 0 hj2,
      getD_range_map _ _ j1 0 (by omega)]
    exact countGt_anti _ j1 j2 h12
  · rw [yflat_length, precomp_ydims,
      num_configs_sum targets hne hall hsort]
  · intro pos c hpos hc
    rw [precomp_num_configs, getD_range_map _ _ pos 0 hpos] at hc
    have hsum : (∑ q in Finset.range pos,
        (resource_kernel_likelihood_precomputations targets).num_configs.getD q 0)
        = ∑ q in Finset.range pos, countGt (targets.map List.length) q := by
      refine Finset.sum_congr rfl (fun q hq => ?_)
      have hqM : q < (targets.map List.length).headD 0 := by
        have := Finset.mem_range.mp hq
        omega
      rw [precomp_num_configs, getD_range_map _ _ q 0 hqM]
    rw [hsum]
    exact yflat_getD targets pos c hpos hc
  · intro p kern noise chol chol2 skip h
    simp only [resource_kernel_likelihood_computations]
    rw [h]
  · intro p kern noise chol skip
    rfl

theorem precomputations_structure_witness :
    (resource_kernel_likelihood_precomputations witTargets).yflat.length
      = (resource_kernel_likelihood_precomputations witTargets).ydims.sum :=
  (precomputations_structure witTargets (by decide) (by decide)
    (by decide)).2.2.2.2.1

/-- C8: under the stated precondition every `assert` of the three likelihood
functions holds, so the failure branches are unreachable and the embedded
functions are total on this domain. -/
theorem assertions_unreachable (targets : List (List ℚ)) (kern : ResKernel)
    (hne : targets ≠ []) (hall : ∀ y ∈ targets, y ≠ [])
    (hsort : List.Sorted (· ≥ ·) (targets.map List.length))
    (hlen : ∀ y ∈ targets, (y.length : ℤ) ≤ kern.r_max + 1 - kern.r_min)
    (hrr : kern.r_min ≤ kern.r_max) :
    precompAssertsOk targets
    ∧ fastAssertsOk (resource_kernel_likelihood_precomputations targets) kern
    ∧ slowAssertsOk targets kern := by
  have hn : 0 < targets.length := by
    cases targets with
    | nil => simp at hne
    | cons y t => simp
  refine ⟨⟨num_configs_headD targets hne hall,
      num_configs_getLastD_pos targets hne hall hsort,
      by rw [num_configs_sum targets hne hall hsort, precomp_ydims],
      yflat_length targets⟩,
    ⟨?_, by omega⟩, ⟨hn, fun y hy => ⟨List.length_pos.mpr (hall y hy), hlen y hy⟩⟩⟩
  rw [num_configs_headD targets hne hall]
  exact hn

theorem assertions_unreachable_witness :
    precompAssertsOk witTargets
    ∧ fastAssertsOk (resource_kernel_likelihood_precomputations witTargets)
        witKernel
    ∧ slowAssertsOk witTargets witKernel :=
  assertions_unreachable witTargets witKernel (by decide) (by decide)
    (by decide) (by decide) (by decide)

end SyneTune
